import Mathlib

/-! # dnapair: mean force and torque of two DNA helices

A shallow embedding of `src/prog/mf.h`, of `aveang`, `rottrans` and the driver
`mf_dolist` of `src/prog/mf.c`, and of the batch routine `calcmf` of `src/mf.h`,
over exact arithmetic.

* C `double` / `float` data read from the input (positions, forces, masses)
  are rationals.
* A value computed through a division is a `Dbl`: `some q` for the number `q`,
  `none` when the C expression has no finite value because a division by zero
  happened on the way (C yields NaN or an infinity there). `none` is absorbing
  for `+ - * /`, as NaN is in C; an infinity behaves the same in the code
  embedded here, which never divides by a value that came out of a division.
* The angles of `aveang` and `rottrans` live in an ordered field with a floor
  function; `M_PI` and `atan2` are parameters, instantiated with the real
  number π and the argument of a complex number in the examples.
* Rounding and overflow of machine floating point are not modelled.
* A file is the list of the results of the successive `fgets` calls on it.
-/

namespace Dnapair

/-! ## Numbers -/

/-- A C double in exact arithmetic: `some q`, or `none` for NaN and the infinities. -/
def Dbl : Type := Option ℚ

namespace Dbl

/-- The finite value `q`. -/
def fin (q : ℚ) : Dbl := some q

/-- The result of an operation without a finite value. -/
def nan : Dbl := none

/-- Lifting of a binary operation: finite operands give a finite result. -/
def lift2 (op : ℚ → ℚ → ℚ) : Dbl → Dbl → Dbl
  | some a, some b => some (op a b)
  | _, _ => none

/-- Division `a / b` of C doubles: no finite value for a zero divisor. -/
def div : Dbl → Dbl → Dbl
  | some a, some b => if b = 0 then none else some (a / b)
  | _, _ => none

instance : Add Dbl := ⟨lift2 (fun a b => a + b)⟩
instance : Sub Dbl := ⟨lift2 (fun a b => a - b)⟩
instance : Mul Dbl := ⟨lift2 (fun a b => a * b)⟩
instance : Div Dbl := ⟨div⟩
instance : Neg Dbl := ⟨fun a => Option.map (fun q => -q) a⟩
instance : Coe ℚ Dbl := ⟨fin⟩
instance : Inhabited Dbl := ⟨fin 0⟩
instance : DecidableEq Dbl := inferInstanceAs (DecidableEq (Option ℚ))

end Dbl

/-- The C type `double[3]` / `float[3]` of data read from the input. -/
structure Vec3 where
  x : ℚ
  y : ℚ
  z : ℚ
deriving DecidableEq, Repr

instance : Inhabited Vec3 := ⟨⟨0, 0, 0⟩⟩

/-- The C type `double[3]` of a computed vector (a center of mass). -/
structure DVec3 where
  x : Dbl
  y : Dbl
  z : Dbl
deriving DecidableEq

/-- Reading `a[i]` of a C array held in a list. -/
def at3 (a : List Vec3) (i : Nat) : Vec3 := a.getD i ⟨0, 0, 0⟩

/-! ## `src/prog/mf.h` -/

/-- The weight `mi = (m != NULL) ? m[i] : 1.0` of atom `i` in `calccom`. -/
def massAt (m : Option (List ℚ)) (i : Nat) : ℚ :=
  match m with
  | some ms => ms.getD i 0
  | none => 1

/-- One pass of the loop over `i` in `calccom`: the state is
`(xc[0], xc[1], xc[2], mtot)`. -/
def calccom_step (x : List Vec3) (m : Option (List ℚ))
    (st : ℚ × ℚ × ℚ × ℚ) (i : Nat) : ℚ × ℚ × ℚ × ℚ :=
  let mi : ℚ := massAt m i
  (st.1 + (at3 x i).x * mi, st.2.1 + (at3 x i).y * mi, st.2.2.1 + (at3 x i).z * mi,
    st.2.2.2 + mi)

/-- The function `calccom` of `src/prog/mf.h`: center of mass of `x[0..n)`;
`m = none` is the C call with `m == NULL`. -/
def calccom (x : List Vec3) (m : Option (List ℚ)) (n : Nat) : DVec3 :=
  let st := (List.range n).foldl (calccom_step x m) (0, 0, 0, 0)
  let mtot := st.2.2.2
  ⟨Dbl.fin st.1 / Dbl.fin mtot, Dbl.fin st.2.1 / Dbl.fin mtot,
    Dbl.fin st.2.2.1 / Dbl.fin mtot⟩

/-- The function `calcrf` of `src/prog/mf.h`: radial force of one frame. -/
def calcrf (f : List Vec3) (np : Nat) : ℚ :=
  let ns := np / 2
  let fr := (List.range np).foldl
    (fun fr i => if i < ns then fr - (at3 f i).x else fr + (at3 f i).x) (0 : ℚ)
  fr / 2

/-- One pass of the loop body of `calctorq` (`src/prog/mf.h`): the state is
`(torq, *symmtorq)`. -/
def calctorq_step (x f : List Vec3) (ns : Nat) (xc0 xc1 : DVec3)
    (st : Dbl × Dbl) (i : Nat) : Dbl × Dbl :=
  let sig : Bool := !(decide (i < ns))
  let sgn : ℚ := if i < ns then -1 else 1
  let c := if sig then xc1 else xc0
  let dx0 : Dbl := Dbl.fin (at3 x i).x - c.x
  let dx1 : Dbl := Dbl.fin (at3 x i).y - c.y
  let t : Dbl := Dbl.fin sgn * (-dx1 * Dbl.fin (at3 f i).x + dx0 * Dbl.fin (at3 f i).y)
  (st.1 + t, if sig then st.2 + t else st.2)

/-- The function `calctorq` of `src/prog/mf.h`: the pair of the returned
torque and of the value left in `*symmtorq`. -/
def calctorq (x f : List Vec3) (np : Nat) (xc0 xc1 : DVec3) : Dbl × Dbl :=
  let ns := np / 2
  let st := (List.range np).foldl (calctorq_step x f ns xc0 xc1) (Dbl.fin 0, Dbl.fin 0)
  (st.1, st.2 / Dbl.fin 2)

/-! ## The accumulators `double sums[MFCNT][3]` -/

/-- One row `sums[k]`: `sums[k][0]` count, `sums[k][1]` sum, `sums[k][2]` square sum. -/
structure Acc where
  cnt : Dbl
  sum : Dbl
  sq : Dbl
deriving DecidableEq

/-- The array `double sums[MFCNT][3]` with `MFCNT = 3`: radial force, torque,
symmetric torque. -/
structure Sums where
  s0 : Acc
  s1 : Acc
  s2 : Acc
deriving DecidableEq

/-- The initial value `{{0, 0, 0}}` given to `sums` in `mf_dolist`. -/
def Sums.zero : Sums :=
  ⟨⟨Dbl.fin 0, Dbl.fin 0, Dbl.fin 0⟩, ⟨Dbl.fin 0, Dbl.fin 0, Dbl.fin 0⟩,
    ⟨Dbl.fin 0, Dbl.fin 0, Dbl.fin 0⟩⟩

/-- The body of the loop over `k` in `calcmf_inplace`:
`sums[k][0] += 1; sums[k][1] += f[k]; sums[k][2] += f[k] * f[k]`. -/
def accum (a : Acc) (v : Dbl) : Acc :=
  ⟨a.cnt + Dbl.fin 1, a.sum + v, a.sq + v * v⟩

/-- The loop `for ( k = 0; k < MFCNT; k++ )` of `calcmf_inplace` on the frame
values `f[0], f[1], f[2]`. -/
def Sums.add (s : Sums) (v : Dbl × Dbl × Dbl) : Sums :=
  ⟨accum s.s0 v.1, accum s.s1 v.2.1, accum s.s2 v.2.2⟩

/-! ## The trajectory file and the buffer `xf_t` -/

/-- One line of a trajectory file, as the code sees it: `marker` is the test
`strncmp(s, "timestep", 8) == 0`, `pos` the values `atof(tok[1..3])`, and
`f0 f1 f2` the three `%f` conversions of `sscanf` (`none`: the field is not
there, the target keeps its value). -/
structure Line where
  marker : Bool
  pos : Vec3
  f0 : Option ℚ
  f1 : Option ℚ
  f2 : Option ℚ
deriving DecidableEq

/-- An atom line with all its fields: position `p` and force `f`. -/
def Line.atom (p f : Vec3) : Line := ⟨false, p, some f.x, some f.y, some f.z⟩

/-- A line starting with `timestep`; its other fields are never looked at
when it is read as a frame marker. -/
def Line.timestep : Line := ⟨true, ⟨0, 0, 0⟩, none, none, none⟩

/-- The effect of `sscanf(s, "%s%s%s%s%f%f%f", ..., &xf->f[i][0], ...)` on the
entry `xf->f[i]`, whose value before is `old`. -/
def scanForce (old : Vec3) (l : Line) : Vec3 :=
  ⟨l.f0.getD old.x, l.f1.getD old.y, l.f2.getD old.z⟩

/-- Modelled from the spec: the type `xf_t` is declared in `xf.h`, which is not
among the sources; these are the fields `mf.h` and `mf.c` use: the number of
atoms `np`, the frame flag `nfr`, the positions `x` and the forces `f`. -/
structure Xf where
  np : Nat
  nfr : Nat
  x : List Vec3
  f : List Vec3
deriving DecidableEq

/-- The result of the loop `for ( i = 0; i < np; i++ )` reading the atom lines
of one frame. -/
structure ReadRes where
  i : Nat
  x : List Vec3
  f : List Vec3
  rest : List Line

/-- The loop `for ( i = 0; i < np; i++ )` of `calcmf_inplace`, from counter `i`
with `rem = np - i` passes to go: it stops early when `fgets` finds no line. -/
def readAtoms (nfr : Nat) : Nat → Nat → List Line → List Vec3 → List Vec3 → ReadRes
  | i, 0, ls, x, f => ⟨i, x, f, ls⟩
  | i, _ + 1, [], x, f => ⟨i, x, f, []⟩
  | i, rem + 1, l :: ls, x, f =>
    readAtoms nfr (i + 1) rem ls
      (if nfr = 0 then x.set i l.pos else x)
      (f.set i (scanForce (at3 f i) l))

/-- The centers `xc[0], xc[1]` as `calcmf_inplace` computes them from the
position buffer. -/
def centers (x : List Vec3) (mass : Option (List ℚ)) (np : Nat) : DVec3 × DVec3 :=
  (calccom x mass (np / 2), calccom (x.drop (np / 2)) mass (np / 2))

/-- The frame values `f[0], f[1], f[2]` computed from the buffers. -/
def frameValues (x f : List Vec3) (np : Nat) (xc : DVec3 × DVec3) : Dbl × Dbl × Dbl :=
  (Dbl.fin (calcrf f np), (calctorq x f np xc.1 xc.2).1, (calctorq x f np xc.1 xc.2).2)

/-- The loop `for ( ; ; )` of `calcmf_inplace`. `once` holds the centers `xc`
when the flag `once` is set, and `none` before. Each pass reads at least the
marker line, so `fuel` above the number of lines is never used up. -/
def framesLoop (np : Nat) (mass : Option (List ℚ)) :
    Nat → Option (DVec3 × DVec3) → Xf → Sums → List Line → Xf × Sums
  | 0, _, xf, sums, _ => (xf, sums)
  | _ + 1, _, xf, sums, [] => (xf, sums)
  | fuel + 1, once, xf, sums, l :: ls =>
    if l.marker = false then (xf, sums)
    else
      let r := readAtoms xf.nfr 0 np ls xf.x xf.f
      let xc := match once with
        | some c => c
        | none => centers r.x mass np
      let sums1 := sums.add (frameValues r.x r.f np xc)
      if r.i < np then ({ xf with x := r.x, f := r.f }, sums1)
      else framesLoop np mass fuel (some xc) { xf with x := r.x, f := r.f, nfr := 1 } sums1 r.rest

/-- The function `calcmf_inplace` of `src/prog/mf.h`. The file is `none` when
`fopen` fails. The result is the return value, the buffer and the sums. -/
def calcmf_inplace (xf : Xf) (file : Option (List Line)) (mass : Option (List ℚ))
    (sums : Sums) : Int × Xf × Sums :=
  match file with
  | none => (-1, xf, sums)
  | some ls =>
    let r := framesLoop xf.np mass (ls.length + 1) none xf sums ls
    (0, r.1, r.2)

/-! ## `mf_dolist` of `src/prog/mf.c` -/

/-- What `mf_dolist` prints for one quantity: `ave[j]`, the number `var` whose
square root is `std[j]`, and the count `sums[j][0]`. -/
structure Stat where
  ave : Dbl
  var : Dbl
  cnt : Dbl
deriving DecidableEq

/-- The conversion of one row of sums in `mf_dolist`:
`ave[j] = sums[j][1] / sums[j][0]` and
`std[j] = sqrt(sums[j][2] / sums[j][0] - ave[j] * ave[j])`. -/
def finalize (a : Acc) : Stat :=
  let ave := a.sum / a.cnt
  ⟨ave, a.sq / a.cnt - ave * ave, a.cnt⟩

/-- The line printed after one file: the statistics of the three quantities. -/
structure Report where
  f : Stat
  torq : Stat
  symmtorq : Stat
deriving DecidableEq

/-- The loop over the files in `mf_dolist`: the state is the buffer, the sums
and the lines printed so far. The call of `rottrans` for the first file only
reads the buffer and is left out. -/
def mf_dolist_loop (mass : Option (List ℚ)) :
    List (Option (List Line)) → Xf → Sums → List Report → Xf × Sums × List Report
  | [], xf, sums, out => (xf, sums, out)
  | file :: fns, xf, sums, out =>
    let r := calcmf_inplace xf file mass sums
    let sums1 := r.2.2
    mf_dolist_loop mass fns r.2.1 sums1
      (out ++ [⟨finalize sums1.s0, finalize sums1.s1, finalize sums1.s2⟩])

/-- The function `mf_dolist` of `src/prog/mf.c` on the list of files `fns`. -/
def mf_dolist (xf : Xf) (fns : List (Option (List Line))) (mass : Option (List ℚ)) :
    Xf × Sums × List Report :=
  mf_dolist_loop mass fns xf Sums.zero []

/-! ## `src/mf.h`, the older batch routines -/

/-- One pass of the loop body of `calctorq` of `src/mf.h`: the state is `torq`. -/
def MfH.calctorq_step (x f : List Vec3) (ns : Nat) (xc0 xc1 : DVec3)
    (torq : Dbl) (i : Nat) : Dbl :=
  let sig : Bool := !(decide (i < ns))
  let sgn : ℚ := if i < ns then -1 else 1
  let c := if sig then xc1 else xc0
  let dx0 : Dbl := Dbl.fin (at3 x i).x - c.x
  let dx1 : Dbl := Dbl.fin (at3 x i).y - c.y
  torq + Dbl.fin sgn * (-dx1 * Dbl.fin (at3 f i).x + dx0 * Dbl.fin (at3 f i).y)

/-- The function `calctorq` of `src/mf.h`: it ends with `torq /= 2`. -/
def MfH.calctorq (x f : List Vec3) (np : Nat) (xc0 xc1 : DVec3) : Dbl :=
  let ns := np / 2
  let torq := (List.range np).foldl (MfH.calctorq_step x f ns xc0 xc1) (Dbl.fin 0)
  torq / Dbl.fin 2

/-- One pass of the loop over the frames in `calcmf` of `src/mf.h`: the state is
`(mf[0], mf[1], var[0], var[1])`; the forces of frame `ifr` are `xf->f + ifr * np`. -/
def MfH.calcmf_step (xf : Xf) (xc0 xc1 : DVec3) (st : Dbl × Dbl × Dbl × Dbl)
    (ifr : Nat) : Dbl × Dbl × Dbl × Dbl :=
  let f0 : Dbl := Dbl.fin (calcrf (xf.f.drop (ifr * xf.np)) xf.np)
  let f1 : Dbl := MfH.calctorq xf.x (xf.f.drop (ifr * xf.np)) xf.np xc0 xc1
  (st.1 + f0, st.2.1 + f1, st.2.2.1 + f0 * f0, st.2.2.2 + f1 * f1)

/-- The function `calcmf` of `src/mf.h` with `docorr == 0`: `mf` and `var` are
the values the two arrays of the caller hold on entry; the result is the
return value and the values `(mf[0], mf[1], var[0], var[1])` the arrays hold
on return. Here `xf->nfr` is the number of frames held in `xf->f`. -/
def MfH.calcmf (xf : Xf) (m : Option (List ℚ)) (_mf var : Dbl × Dbl) :
    Int × Dbl × Dbl × Dbl × Dbl :=
  let xc0 := calccom xf.x m (xf.np / 2)
  let xc1 := calccom (xf.x.drop (xf.np / 2)) m (xf.np / 2)
  let st := (List.range xf.nfr).foldl (MfH.calcmf_step xf xc0 xc1)
    (Dbl.fin 0, Dbl.fin 0, var.1, var.2)
  let nfr : Dbl := Dbl.fin xf.nfr
  let mf0 := st.1 / nfr
  let mf1 := st.2.1 / nfr
  (0, mf0, mf1, st.2.2.1 / nfr - mf0 * mf0, st.2.2.2 / nfr - mf1 * mf1)

/-! ## The angles: `aveang` and `rottrans` of `src/prog/mf.c`

The angles live in an ordered field `K` with a floor function (the reals, or
the rationals for a computation); the constant `M_PI` and the function `atan2`
of the C library are the parameters `pi` and `atan2`. -/

/-- A C `double[3]` with entries in the field `K`. -/
structure Vec3K (K : Type) where
  x : K
  y : K
  z : K

/-- Reading `a[i]` of a C array held in a list. -/
def atK {K : Type} [Zero K] (a : List (Vec3K K)) (i : Nat) : Vec3K K := a.getD i ⟨0, 0, 0⟩

/-- The quotient `a` truncated toward zero, as the C library does in `fmod`. -/
def ctrunc {K : Type} [LinearOrderedField K] [FloorRing K] (a : K) : ℤ :=
  if 0 ≤ a then ⌊a⌋ else ⌈a⌉

/-- The function `fmod` of the C library for a divisor `b ≠ 0`: `a - n * b` with
`n` the quotient `a / b` truncated toward zero; the result has the sign of `a`. -/
def fmod {K : Type} [LinearOrderedField K] [FloorRing K] (a b : K) : K :=
  a - (ctrunc (a / b) : K) * b

/-- The wrapping line of `aveang`:
`dang = fmod(dang - angref + 5 * M_PI, 2 * M_PI) - M_PI`. -/
def wrapAngle {K : Type} [LinearOrderedField K] [FloorRing K] (pi dang angref : K) : K :=
  fmod (dang - angref + 5 * pi) (2 * pi) - pi

/-- The raw difference `dang = angy - angx` of atom `i` in `aveang`, with
`angx = atan2(x1, x0)` and `angy = atan2(y1, y0)`. -/
def aveang_dang {K : Type} [LinearOrderedField K] (atan2 : K → K → K)
    (x y : List (Vec3K K)) (xc yc : Vec3K K) (i : Nat) : K :=
  let x0 := (atK x i).x - xc.x
  let x1 := (atK x i).y - xc.y
  let y0 := (atK y i).x - yc.x
  let y1 := (atK y i).y - yc.y
  let angx := atan2 x1 x0
  let angy := atan2 y1 y0
  angy - angx

/-- The weight `wt` of atom `i` in `aveang`: `x0*x0 + x1*x1 + y0*y0 + y1*y1`,
times `mass[i]` when `mass != NULL`. -/
def aveang_wt {K : Type} [LinearOrderedField K] (x y : List (Vec3K K))
    (mass : Option (List K)) (xc yc : Vec3K K) (i : Nat) : K :=
  let x0 := (atK x i).x - xc.x
  let x1 := (atK x i).y - xc.y
  let y0 := (atK y i).x - yc.x
  let y1 := (atK y i).y - yc.y
  let wt := x0 * x0 + x1 * x1 + y0 * y0 + y1 * y1
  match mass with
  | some ms => wt * ms.getD i 0
  | none => wt

/-- One pass of the loop of `aveang`: the state is `(suma, wtot)`. -/
def aveang_step {K : Type} [LinearOrderedField K] [FloorRing K] (pi : K) (atan2 : K → K → K)
    (x y : List (Vec3K K)) (mass : Option (List K)) (xc yc : Vec3K K) (angref : K)
    (st : K × K) (i : Nat) : K × K :=
  let dang := wrapAngle pi (aveang_dang atan2 x y xc yc i) angref
  let wt := aveang_wt x y mass xc yc i
  (st.1 + wt * dang, st.2 + wt)

/-- The function `aveang` of `src/prog/mf.c` on finite data: `none` when the
total weight `wtot` is zero, the division `suma / wtot` having no finite value. -/
def aveang {K : Type} [LinearOrderedField K] [FloorRing K] (pi : K) (atan2 : K → K → K)
    (x y : List (Vec3K K)) (mass : Option (List K)) (ns : Nat) (xc yc : Vec3K K)
    (angref : K) : Option K :=
  let st := (List.range ns).foldl (aveang_step pi atan2 x y mass xc yc angref) (0, 0)
  if st.2 = 0 then none else some (angref + st.1 / st.2)

/-- The position `v` with its entries in `K`. -/
def Vec3.toK {K : Type} [LinearOrderedField K] (v : Vec3) : Vec3K K :=
  ⟨(v.x : K), (v.y : K), (v.z : K)⟩

/-- The computed vector `v` with its entries in `K`, when they are finite. -/
def DVec3.toK {K : Type} [LinearOrderedField K] (v : DVec3) : Option (Vec3K K) :=
  match v.x, v.y, v.z with
  | some a, some b, some c => some ⟨(a : K), (b : K), (c : K)⟩
  | _, _, _ => none

/-- The end of `rottrans`: `if ( dang < -0.08 ) dang += 2 * M_PI; *ang = dang`. -/
def positiveAngle {K : Type} [LinearOrderedField K] (pi dang : K) : K :=
  if dang < -0.08 then dang + 2 * pi else dang

/-- The angle that `rottrans` of `src/prog/mf.c` stores in `*ang`, `none` when it
has no finite value. The solver `vrmsd` is not among the sources: the entries
`r00 r01 r10 r11` of the rotation matrix it returns are parameters. With a
center that is not finite nothing computed from it is finite. -/
def rottrans {K : Type} [LinearOrderedField K] [FloorRing K] (pi : K) (atan2 : K → K → K)
    (x : List Vec3) (mass : Option (List ℚ)) (ns : Nat) (r00 r01 r10 r11 : K) : Option K :=
  let xc0 := calccom x mass ns
  let xc1 := calccom (x.drop ns) mass ns
  let angref := atan2 (r10 - r01) (r00 + r11)
  match (xc0.toK : Option (Vec3K K)), (xc1.toK : Option (Vec3K K)) with
  | some c0, some c1 =>
    (aveang pi atan2 (x.map Vec3.toK) ((x.drop ns).map Vec3.toK)
      (mass.map (List.map (fun q : ℚ => (q : K)))) ns c0 c1 angref).map (positiveAngle pi)
  | _, _ => none

/-! ## Definitions used to state the properties -/

/-- The vector of finite values `v` as a computed vector. -/
def Vec3.toD (v : Vec3) : DVec3 := ⟨Dbl.fin v.x, Dbl.fin v.y, Dbl.fin v.z⟩

/-- The indices of subunit A, `0 .. np/2 - 1`. -/
def subA (np : Nat) : List Nat := List.range (np / 2)

/-- The indices of subunit B, `np/2 .. np - 1`. -/
def subB (np : Nat) : List Nat := List.range' (np / 2) (np - np / 2)

/-- The contribution `c_i = -(x[i].y - c.y) * f[i].x + (x[i].x - c.x) * f[i].y` of
atom `i` to the torque about the center `c`. -/
def torqueTerm (x f : List Vec3) (c : Vec3) (i : Nat) : ℚ :=
  -((at3 x i).y - c.y) * (at3 f i).x + ((at3 x i).x - c.x) * (at3 f i).y

/-- The sum of `g i` over the indices `l`. -/
def sumOver (l : List Nat) (g : Nat → ℚ) : ℚ := (l.map g).sum

/-- The mean `(Σ v_i) / n` of the values. -/
def mean (vs : List ℚ) : ℚ := vs.sum / vs.length

/-- The two-pass population variance `(1/n) Σ (v_i - mean)^2` of the values. -/
def twoPassVar (vs : List ℚ) : ℚ :=
  ((vs.map (fun v => (v - mean vs) ^ 2)).sum) / vs.length

/-- The values `vs` fed one after the other through the accumulation step,
starting from the row `a`. -/
def feed (a : Acc) (vs : List ℚ) : Acc := (vs.map Dbl.fin).foldl accum a

/-- The buffer `buf` after its first entries are overwritten by `vals`. -/
def overwrite (buf vals : List Vec3) : List Vec3 := vals ++ buf.drop vals.length

/-- The frame values that the loop `for ( ; ; )` of `calcmf_inplace` adds to the
sums, in order, with the buffer it leaves: the same passes as `framesLoop`,
recording the values `f[0], f[1], f[2]` of every pass that reaches the update
of the sums. -/
def framesVals (np : Nat) (mass : Option (List ℚ)) :
    Nat → Option (DVec3 × DVec3) → Xf → List Line → Xf × List (Dbl × Dbl × Dbl)
  | 0, _, xf, _ => (xf, [])
  | _ + 1, _, xf, [] => (xf, [])
  | fuel + 1, once, xf, l :: ls =>
    if l.marker = false then (xf, [])
    else
      let r := readAtoms xf.nfr 0 np ls xf.x xf.f
      let xc := match once with
        | some c => c
        | none => centers r.x mass np
      let v := frameValues r.x r.f np xc
      if r.i < np then ({ xf with x := r.x, f := r.f }, [v])
      else
        let t := framesVals np mass fuel (some xc) { xf with x := r.x, f := r.f, nfr := 1 } r.rest
        (t.1, v :: t.2)

/-- The frame values one call of `calcmf_inplace` adds to the sums, with the
buffer it leaves. -/
def fileVals (xf : Xf) (file : Option (List Line)) (mass : Option (List ℚ)) :
    Xf × List (Dbl × Dbl × Dbl) :=
  match file with
  | none => (xf, [])
  | some ls => framesVals xf.np mass (ls.length + 1) none xf ls

/-- The frame values added to the sums by each file of a run of `mf_dolist`,
file by file, the buffer being handed from one file to the next. -/
def runVals (mass : Option (List ℚ)) :
    List (Option (List Line)) → Xf → List (List (Dbl × Dbl × Dbl))
  | [], _ => []
  | file :: fns, xf => (fileVals xf file mass).2 :: runVals mass fns (fileVals xf file mass).1

/-- The buffer after a run of `mf_dolist` over the files. -/
def runXf (mass : Option (List ℚ)) : List (Option (List Line)) → Xf → Xf
  | [], xf => xf
  | file :: fns, xf => runXf mass fns (fileVals xf file mass).1

/-- The lines of one complete frame: the marker line `m`, then one atom line
for each pair of a position and a force. -/
def frameLines (fr : Line × List (Vec3 × Vec3)) : List Line :=
  fr.1 :: fr.2.map (fun a => Line.atom a.1 a.2)

/-- The lines of a file made of the complete frames `frames` followed by the
lines `tail`. -/
def fileOf (frames : List (Line × List (Vec3 × Vec3))) (tail : List Line) : List Line :=
  (frames.map frameLines).flatten ++ tail

/-- The line printed for the sums `s`. -/
def reportOf (s : Sums) : Report := ⟨finalize s.s0, finalize s.s1, finalize s.s2⟩

/-- The sum of a list of computed values. -/
def dsum (vs : List Dbl) : Dbl := vs.foldr (fun v t => v + t) (Dbl.fin 0)

/-- The row `a` with its count increased by the number of the values `vs`, its
sum by their sum and its square sum by the sum of their squares. -/
def addAll (a : Acc) (vs : List Dbl) : Acc :=
  ⟨a.cnt + Dbl.fin vs.length, a.sum + dsum vs, a.sq + dsum (vs.map (fun v => v * v))⟩

/-- The position buffer a call of `calcmf_inplace` works with when the first
frame of the file carries the positions `P`: the buffer overwritten by `P` when
`nfr == 0` on entry, the buffer as it is otherwise. -/
def cachedX (xf : Xf) (P : List Vec3) : List Vec3 :=
  if xf.nfr = 0 then overwrite xf.x P else xf.x

/-- The position buffer a call of `calcmf_inplace` works with on a file made of
the complete frames `frames`. -/
def cachedPos (xf : Xf) (frames : List (Line × List (Vec3 × Vec3))) : List Vec3 :=
  match frames with
  | [] => xf.x
  | fr :: _ => cachedX xf (fr.2.map Prod.fst)

/-- The values of the force and torque extractor on the frames `frames`, the
positions being those of the buffer `X`. -/
def extractAll (X : List Vec3) (mass : Option (List ℚ)) (np : Nat)
    (frames : List (Line × List (Vec3 × Vec3))) : List (Dbl × Dbl × Dbl) :=
  frames.map (fun fr => frameValues X (fr.2.map Prod.snd) np (centers X mass np))

/-- The frame values of the files `0 .. j` of a run of `mf_dolist`, pooled in
the order in which they are accumulated. -/
def pooledVals (mass : Option (List ℚ)) (fns : List (Option (List Line))) (xf : Xf)
    (j : Nat) : List (Dbl × Dbl × Dbl) :=
  ((runVals mass fns xf).take (j + 1)).flatten

/-- The statistics of a list of values of one quantity: count, sum and square
sum taken from zero, then the conversion of `mf_dolist`. -/
def statOf (vs : List Dbl) : Stat := finalize (addAll ⟨Dbl.fin 0, Dbl.fin 0, Dbl.fin 0⟩ vs)

/-- The component-wise arithmetic mean of the positions `x`. -/
def meanPos (x : List Vec3) : Vec3 :=
  ⟨mean (x.map Vec3.x), mean (x.map Vec3.y), mean (x.map Vec3.z)⟩

/-- The sums `(xc[0], xc[1], xc[2], mtot)` of `calccom` after its loop over `i`,
before the division by `mtot`. -/
def calccom_sums (x : List Vec3) (m : Option (List ℚ)) (n : Nat) : ℚ × ℚ × ℚ × ℚ :=
  (List.range n).foldl (calccom_step x m) (0, 0, 0, 0)

/-- The statistics printed for a row whose count is zero: no finite mean, no
finite deviation, count 0. -/
def emptyStat : Stat := ⟨Dbl.nan, Dbl.nan, Dbl.fin 0⟩

/-- The expression `sumSquares / count - (sum / count)^2` of `mf_dolist` for the
values `vs` over exact arithmetic. -/
def varExpr (vs : List ℚ) : ℚ :=
  (vs.map (fun v => v * v)).sum / vs.length - (vs.sum / vs.length) ^ 2

/-- The sum of `g i` over the indices `l`, in the field `K`. -/
def sumK {K : Type} [LinearOrderedField K] (l : List Nat) (g : Nat → K) : K := (l.map g).sum


/-! # Theorems -/

/-! ## Reading arrays held in lists -/

theorem map_at3_rangeFrom (f : List Vec3) (s n : Nat) (h : s + n ≤ f.length) :
    (List.range' s n).map (at3 f) = (f.drop s).take n := by
  apply List.ext_getElem?
  intro m
  by_cases hm : m < n
  · have h1 : s + m < f.length := by omega
    simp [List.getElem?_take, hm, List.getElem?_drop, List.getElem?_range', at3,
      List.getD_eq_getElem?_getD, List.getElem?_eq_getElem h1]
  · have h2 : n ≤ m := by omega
    simp [List.getElem?_take, hm, List.getElem?_eq_none, h2]

theorem map_at3_range (f : List Vec3) (n : Nat) (h : n ≤ f.length) :
    (List.range n).map (at3 f) = f.take n := by
  have := map_at3_rangeFrom f 0 n (by omega)
  simpa [List.range_eq_range'] using this

/-! ## `calcrf` -/

theorem foldl_sub_of_lt (g : Nat → ℚ) (ns : Nat) (l : List Nat) (c : ℚ)
    (h : ∀ i ∈ l, i < ns) :
    l.foldl (fun fr i => if i < ns then fr - g i else fr + g i) c = c - (l.map g).sum := by
  induction l generalizing c with
  | nil => simp
  | cons a l ih =>
    have ha : a < ns := h a (by simp)
    have hl : ∀ i ∈ l, i < ns := fun i hi => h i (by simp [hi])
    simp only [List.foldl_cons, List.map_cons, List.sum_cons, if_pos ha]
    rw [ih _ hl]; ring

theorem foldl_add_of_ge (g : Nat → ℚ) (ns : Nat) (l : List Nat) (c : ℚ)
    (h : ∀ i ∈ l, ns ≤ i) :
    l.foldl (fun fr i => if i < ns then fr - g i else fr + g i) c = c + (l.map g).sum := by
  induction l generalizing c with
  | nil => simp
  | cons a l ih =>
    have ha : ¬ a < ns := by have := h a (by simp); omega
    have hl : ∀ i ∈ l, ns ≤ i := fun i hi => h i (by simp [hi])
    simp only [List.foldl_cons, List.map_cons, List.sum_cons, if_neg ha]
    rw [ih _ hl]; ring

theorem range_split (ns np : Nat) (h : ns ≤ np) :
    List.range np = List.range ns ++ List.range' ns (np - ns) := by
  have := List.range'_append 0 ns (np - ns) 1
  simp only [Nat.zero_add, Nat.one_mul] at this
  rw [List.range_eq_range', List.range_eq_range', this]
  congr 1; omega

theorem calcrf_formula (f : List Vec3) (np : Nat) (hlen : f.length = np) :
    calcrf f np =
      (((f.drop (np / 2)).map Vec3.x).sum - ((f.take (np / 2)).map Vec3.x).sum) / 2 := by
  have hns : np / 2 ≤ np := Nat.div_le_self np 2
  unfold calcrf
  simp only
  rw [range_split (np / 2) np hns, List.foldl_append,
    foldl_sub_of_lt (fun i => (at3 f i).x) (np / 2) _ 0 (by simp),
    foldl_add_of_ge (fun i => (at3 f i).x) (np / 2) _ _
      (by intro i hi; simp [List.mem_range'] at hi; omega)]
  have e1 : (List.range (np / 2)).map (fun i => (at3 f i).x)
      = (f.take (np / 2)).map Vec3.x := by
    rw [← map_at3_range f (np / 2) (by omega), List.map_map]; rfl
  have e2 : (List.range' (np / 2) (np - np / 2)).map (fun i => (at3 f i).x)
      = (f.drop (np / 2)).map Vec3.x := by
    have := map_at3_rangeFrom f (np / 2) (np - np / 2) (by omega)
    rw [List.take_of_length_le (by simp; omega)] at this
    rw [← this, List.map_map]; rfl
  rw [e1, e2]; ring

/-- C1: for every `np` (even or not) and every force array of length `np`, `calcrf`
returns the sum of the x components of the forces on atoms `np/2 .. np-1`
minus the sum of those on atoms `0 .. np/2-1`, divided by 2; an array with the
same x components (whatever its y and z components) gives the same result. -/
theorem calcrf_spec (np : Nat) (f : List Vec3) (hlen : f.length = np) :
    calcrf f np =
        (((f.drop (np / 2)).map Vec3.x).sum - ((f.take (np / 2)).map Vec3.x).sum) / 2
      ∧ ∀ g : List Vec3, g.map Vec3.x = f.map Vec3.x → calcrf g np = calcrf f np := by
  refine ⟨calcrf_formula f np hlen, ?_⟩
  intro g hg
  have hglen : g.length = np := by
    have := congrArg List.length hg
    simpa [hlen] using this
  rw [calcrf_formula f np hlen, calcrf_formula g np hglen, List.map_drop, List.map_drop,
    List.map_take, List.map_take, hg]

/-- C1, the witness of the spec: `np = 4`, x forces `[1, 2]` on A and `[3, 4]`
on B give 2, whatever the other components. -/
theorem calcrf_spec_witness :
    calcrf [⟨1, 5, 6⟩, ⟨2, 7, 8⟩, ⟨3, 9, 10⟩, ⟨4, 11, 12⟩] 4 = 2 := by
  rw [(calcrf_spec 4 [⟨1, 5, 6⟩, ⟨2, 7, 8⟩, ⟨3, 9, 10⟩, ⟨4, 11, 12⟩] rfl).1]
  norm_num

/-! ## Arithmetic of `Dbl` on finite values -/

@[simp] theorem Dbl.fin_add (a b : ℚ) : Dbl.fin a + Dbl.fin b = Dbl.fin (a + b) := rfl

@[simp] theorem Dbl.fin_sub (a b : ℚ) : Dbl.fin a - Dbl.fin b = Dbl.fin (a - b) := rfl

@[simp] theorem Dbl.fin_mul (a b : ℚ) : Dbl.fin a * Dbl.fin b = Dbl.fin (a * b) := rfl

@[simp] theorem Dbl.fin_neg (a : ℚ) : -Dbl.fin a = Dbl.fin (-a) := rfl

theorem Dbl.fin_div (a b : ℚ) (h : b ≠ 0) : Dbl.fin a / Dbl.fin b = Dbl.fin (a / b) := by
  show Dbl.div (some a) (some b) = some (a / b)
  simp [Dbl.div, h]

@[simp] theorem Dbl.fin_div_zero (a : ℚ) : Dbl.fin a / Dbl.fin 0 = Dbl.nan := by
  show Dbl.div (some a) (some 0) = none
  simp [Dbl.div]

@[simp] theorem Dbl.fin_inj (a b : ℚ) : Dbl.fin a = Dbl.fin b ↔ a = b := by
  show (some a : Option ℚ) = some b ↔ a = b
  simp

@[simp] theorem Dbl.fin_ne_nan (a : ℚ) : Dbl.fin a ≠ Dbl.nan := by
  show (some a : Option ℚ) ≠ none
  simp

/-! ## `calctorq` -/

theorem calctorq_fold_A (x f : List Vec3) (ns : Nat) (c0 c1 : Vec3) (l : List Nat)
    (a b : ℚ) (h : ∀ i ∈ l, i < ns) :
    l.foldl (calctorq_step x f ns c0.toD c1.toD) (Dbl.fin a, Dbl.fin b)
      = (Dbl.fin (a - sumOver l (torqueTerm x f c0)), Dbl.fin b) := by
  induction l generalizing a with
  | nil => simp [sumOver]
  | cons i l ih =>
    have hi : i < ns := h i (by simp)
    have hl : ∀ j ∈ l, j < ns := fun j hj => h j (by simp [hj])
    have step : calctorq_step x f ns c0.toD c1.toD (Dbl.fin a, Dbl.fin b) i
        = (Dbl.fin (a - torqueTerm x f c0 i), Dbl.fin b) := by
      simp [calctorq_step, hi, Vec3.toD, torqueTerm]
      ring
    rw [List.foldl_cons, step, ih _ hl]
    simp [sumOver]
    ring

theorem calctorq_fold_B (x f : List Vec3) (ns : Nat) (c0 c1 : Vec3) (l : List Nat)
    (a b : ℚ) (h : ∀ i ∈ l, ns ≤ i) :
    l.foldl (calctorq_step x f ns c0.toD c1.toD) (Dbl.fin a, Dbl.fin b)
      = (Dbl.fin (a + sumOver l (torqueTerm x f c1)),
          Dbl.fin (b + sumOver l (torqueTerm x f c1))) := by
  induction l generalizing a b with
  | nil => simp [sumOver]
  | cons i l ih =>
    have hi : ¬ i < ns := by have := h i (by simp); omega
    have hl : ∀ j ∈ l, ns ≤ j := fun j hj => h j (by simp [hj])
    have step : calctorq_step x f ns c0.toD c1.toD (Dbl.fin a, Dbl.fin b) i
        = (Dbl.fin (a + torqueTerm x f c1 i), Dbl.fin (b + torqueTerm x f c1 i)) := by
      simp [calctorq_step, hi, Vec3.toD, torqueTerm]
    rw [List.foldl_cons, step, ih _ _ hl]
    simp [sumOver]
    constructor <;> ring

theorem calctorq_formula (np : Nat) (x f : List Vec3) (c0 c1 : Vec3) :
    calctorq x f np c0.toD c1.toD
      = (Dbl.fin (sumOver (subB np) (torqueTerm x f c1) - sumOver (subA np) (torqueTerm x f c0)),
          Dbl.fin (sumOver (subB np) (torqueTerm x f c1) / 2)) := by
  have hns : np / 2 ≤ np := Nat.div_le_self np 2
  unfold calctorq
  simp only
  rw [range_split (np / 2) np hns, List.foldl_append,
    calctorq_fold_A x f (np / 2) c0 c1 _ 0 0 (by simp),
    calctorq_fold_B x f (np / 2) c0 c1 _ _ _
      (by intro i hi; simp [List.mem_range'] at hi; omega)]
  rw [Dbl.fin_div _ _ (by norm_num)]
  simp [subA, subB]
  ring

/-- The two values `calctorq` of `src/prog/mf.h` computes as it stands, for
finite centers: the value returned is the sum of the `c_i` over subunit B minus
the sum of the `c_i` over subunit A, without the division by 2 of the older
`calctorq` of `src/mf.h`, and the value left in `*symmtorq` is the sum of the
`c_i` over subunit B divided by 2; each `c_i` is taken about the center of the
subunit of atom `i`. -/
theorem calctorq_spec (np : Nat) (x f : List Vec3) (c0 c1 : Vec3) :
    (calctorq x f np c0.toD c1.toD).1
        = Dbl.fin (sumOver (subB np) (torqueTerm x f c1) - sumOver (subA np) (torqueTerm x f c0))
      ∧ (calctorq x f np c0.toD c1.toD).2
        = Dbl.fin (sumOver (subB np) (torqueTerm x f c1) / 2) := by
  rw [calctorq_formula]
  exact ⟨rfl, rfl⟩

/-- An evaluation of `calctorq` of `src/prog/mf.h`: for `np = 2`, positions
`(0,0,0), (1,0,0)`, forces `(0,0,0), (0,1,0)` and both centers at the origin, the
sum over B is 1 and the sum over A is 0; `calctorq` returns 1 and not
`(1 - 0) / 2`. -/
theorem calctorq_not_halved :
    (calctorq [⟨0, 0, 0⟩, ⟨1, 0, 0⟩] [⟨0, 0, 0⟩, ⟨0, 1, 0⟩] 2
        (Vec3.toD ⟨0, 0, 0⟩) (Vec3.toD ⟨0, 0, 0⟩)).1 = Dbl.fin 1
    ∧ (calctorq [⟨0, 0, 0⟩, ⟨1, 0, 0⟩] [⟨0, 0, 0⟩, ⟨0, 1, 0⟩] 2
        (Vec3.toD ⟨0, 0, 0⟩) (Vec3.toD ⟨0, 0, 0⟩)).1
      ≠ Dbl.fin ((sumOver (subB 2) (torqueTerm [⟨0, 0, 0⟩, ⟨1, 0, 0⟩] [⟨0, 0, 0⟩, ⟨0, 1, 0⟩] ⟨0, 0, 0⟩)
          - sumOver (subA 2) (torqueTerm [⟨0, 0, 0⟩, ⟨1, 0, 0⟩] [⟨0, 0, 0⟩, ⟨0, 1, 0⟩] ⟨0, 0, 0⟩)) / 2) := by
  rw [calctorq_formula]
  simp [sumOver, subA, subB, torqueTerm, at3, List.range', List.range_succ]

/-! ## The accumulation step and the conversion to mean and deviation -/

theorem feed_fin (vs : List ℚ) (n t q : ℚ) :
    feed ⟨Dbl.fin n, Dbl.fin t, Dbl.fin q⟩ vs
      = ⟨Dbl.fin (n + vs.length), Dbl.fin (t + vs.sum),
          Dbl.fin (q + (vs.map (fun v => v * v)).sum)⟩ := by
  induction vs generalizing n t q with
  | nil => simp [feed]
  | cons v vs ih =>
    have step : feed ⟨Dbl.fin n, Dbl.fin t, Dbl.fin q⟩ (v :: vs)
        = feed ⟨Dbl.fin (n + 1), Dbl.fin (t + v), Dbl.fin (q + v * v)⟩ vs := by
      simp [feed, accum]
    rw [step, ih]
    simp only [List.length_cons, List.sum_cons, List.map_cons, Nat.cast_succ]
    congr 2 <;> ring

theorem sum_sq_dev (vs : List ℚ) (m : ℚ) :
    (vs.map (fun v => (v - m) ^ 2)).sum
      = (vs.map (fun v => v * v)).sum - 2 * m * vs.sum + vs.length * m ^ 2 := by
  induction vs with
  | nil => simp
  | cons v vs ih =>
    simp only [List.map_cons, List.sum_cons, List.length_cons, Nat.cast_succ, ih]
    ring

theorem twoPassVar_eq (vs : List ℚ) (h : vs ≠ []) :
    twoPassVar vs = (vs.map (fun v => v * v)).sum / vs.length - mean vs ^ 2 := by
  have hn : (vs.length : ℚ) ≠ 0 := by
    have : vs.length ≠ 0 := by simpa [List.length_eq_zero] using h
    exact_mod_cast this
  unfold twoPassVar
  rw [sum_sq_dev]
  unfold mean
  field_simp
  ring

/-- C3: for every sequence of `n ≥ 1` values fed through the accumulation step
from `{0, 0, 0}`, the row holds the count `n`, the sum and the square sum of
the values; the conversion of `mf_dolist` gives the mean `(Σ v_i) / n` and a
squared standard deviation `(Σ v_i²) / n - mean²`, which is the two-pass
population variance `(1/n) Σ (v_i - mean)²`; a single value gives 0. -/
theorem accum_finalize_spec (vs : List ℚ) (h : vs ≠ []) :
    feed ⟨Dbl.fin 0, Dbl.fin 0, Dbl.fin 0⟩ vs
        = ⟨Dbl.fin vs.length, Dbl.fin vs.sum, Dbl.fin (vs.map (fun v => v * v)).sum⟩
      ∧ (finalize (feed ⟨Dbl.fin 0, Dbl.fin 0, Dbl.fin 0⟩ vs)).ave = Dbl.fin (mean vs)
      ∧ (finalize (feed ⟨Dbl.fin 0, Dbl.fin 0, Dbl.fin 0⟩ vs)).var
          = Dbl.fin ((vs.map (fun v => v * v)).sum / vs.length - mean vs ^ 2)
      ∧ (finalize (feed ⟨Dbl.fin 0, Dbl.fin 0, Dbl.fin 0⟩ vs)).var = Dbl.fin (twoPassVar vs)
      ∧ (vs.length = 1 →
          (finalize (feed ⟨Dbl.fin 0, Dbl.fin 0, Dbl.fin 0⟩ vs)).var = Dbl.fin 0) := by
  have hn : (vs.length : ℚ) ≠ 0 := by
    have : vs.length ≠ 0 := by simpa [List.length_eq_zero] using h
    exact_mod_cast this
  have hfeed : feed ⟨Dbl.fin 0, Dbl.fin 0, Dbl.fin 0⟩ vs
      = ⟨Dbl.fin vs.length, Dbl.fin vs.sum, Dbl.fin (vs.map (fun v => v * v)).sum⟩ := by
    rw [feed_fin]; simp
  have hvar : (finalize (feed ⟨Dbl.fin 0, Dbl.fin 0, Dbl.fin 0⟩ vs)).var
      = Dbl.fin ((vs.map (fun v => v * v)).sum / vs.length - mean vs ^ 2) := by
    rw [hfeed]
    simp only [finalize, Dbl.fin_div _ _ hn, Dbl.fin_mul, Dbl.fin_sub, mean]
    congr 1; ring
  refine ⟨hfeed, ?_, hvar, ?_, ?_⟩
  · rw [hfeed]
    simp only [finalize, Dbl.fin_div _ _ hn, mean]
  · rw [hvar, twoPassVar_eq vs h]
  · intro h1
    rw [hvar]
    match vs, h1 with
    | [v], _ => simp [mean]; ring

/-- C3, the witness of the spec: the values `[1, 2, 3]` give the count 3, the
mean 2 and the variance 2/3. -/
theorem accum_finalize_spec_witness :
    ([1, 2, 3] : List ℚ) ≠ []
      ∧ (finalize (feed ⟨Dbl.fin 0, Dbl.fin 0, Dbl.fin 0⟩ [1, 2, 3])).cnt = Dbl.fin 3
      ∧ (finalize (feed ⟨Dbl.fin 0, Dbl.fin 0, Dbl.fin 0⟩ [1, 2, 3])).ave = Dbl.fin 2
      ∧ (finalize (feed ⟨Dbl.fin 0, Dbl.fin 0, Dbl.fin 0⟩ [1, 2, 3])).var = Dbl.fin (2 / 3) := by
  have key := accum_finalize_spec [1, 2, 3] (by simp)
  refine ⟨by simp, ?_, ?_, ?_⟩
  · rw [key.1]; simp [finalize]
  · rw [key.2.1]; simp [mean]; norm_num
  · rw [key.2.2.1]; simp [mean]; norm_num

/-! ## Reading the atom lines of a frame -/

theorem at3_append_length (a b : List Vec3) (v : Vec3) :
    at3 (a ++ v :: b) a.length = v := by
  unfold at3
  rw [List.getD_eq_getElem?_getD, List.getElem?_append_right (le_refl _)]
  simp

theorem set_append_length (a b : List Vec3) (v w : Vec3) :
    (a ++ v :: b).set a.length w = a ++ w :: b := by
  simp [List.set_append]

theorem readAtoms_nfr_ne_zero (nfr : Nat) (h : nfr ≠ 0) (i rem : Nat) (ls : List Line)
    (x f : List Vec3) : (readAtoms nfr i rem ls x f).x = x := by
  induction rem generalizing i ls f with
  | zero => simp [readAtoms]
  | succ rem ih =>
    cases ls with
    | nil => simp [readAtoms]
    | cons l ls => simp only [readAtoms, if_neg h]; exact ih _ _ _

theorem readAtoms_complete (nfr : Nat) (ls1 rest : List Line) (xpre xmid xpost : List Vec3)
    (fpre fmid fpost : List Vec3) (hx : xmid.length = ls1.length)
    (hf : fmid.length = ls1.length) (hpre : xpre.length = fpre.length) :
    readAtoms nfr fpre.length ls1.length (ls1 ++ rest) (xpre ++ xmid ++ xpost)
        (fpre ++ fmid ++ fpost)
      = ⟨fpre.length + ls1.length,
          if nfr = 0 then xpre ++ ls1.map Line.pos ++ xpost else xpre ++ xmid ++ xpost,
          fpre ++ List.zipWith scanForce fmid ls1 ++ fpost, rest⟩ := by
  induction ls1 generalizing xpre xmid fpre fmid with
  | nil =>
    have h1 : xmid = [] := List.length_eq_zero.mp hx
    have h2 : fmid = [] := List.length_eq_zero.mp hf
    subst h1; subst h2
    simp [readAtoms]
  | cons l ls1 ih =>
    cases xmid with
    | nil => simp at hx
    | cons a xmid =>
    cases fmid with
    | nil => simp at hf
    | cons b fmid =>
    simp only [List.length_cons, Nat.succ.injEq] at hx hf
    simp only [List.length_cons, List.cons_append, readAtoms, List.append_assoc]
    rw [at3_append_length, set_append_length]
    have hset : (xpre ++ a :: (xmid ++ xpost)).set fpre.length l.pos
        = xpre ++ l.pos :: (xmid ++ xpost) := by
      rw [← hpre]; exact set_append_length _ _ _ _
    rw [hset]
    have ih1 := ih (xpre ++ [l.pos]) xmid (fpre ++ [scanForce b l]) fmid hx hf (by simp [hpre])
    have ih2 := ih (xpre ++ [a]) xmid (fpre ++ [scanForce b l]) fmid hx hf (by simp [hpre])
    simp only [List.length_append, List.length_singleton, List.append_assoc,
      List.singleton_append] at ih1 ih2
    by_cases hn : nfr = 0
    · simpa [hn, Nat.add_assoc, Nat.add_comm 1] using ih1
    · simpa [hn, Nat.add_assoc, Nat.add_comm 1] using ih2

/-! ## The loop over the frames and the values it accumulates -/

theorem framesLoop_eq (np : Nat) (mass : Option (List ℚ)) (fuel : Nat)
    (once : Option (DVec3 × DVec3)) (xf : Xf) (sums : Sums) (ls : List Line) :
    framesLoop np mass fuel once xf sums ls
      = ((framesVals np mass fuel once xf ls).1,
          (framesVals np mass fuel once xf ls).2.foldl Sums.add sums) := by
  induction fuel generalizing once xf sums ls with
  | zero => simp [framesLoop, framesVals]
  | succ fuel ih =>
    cases ls with
    | nil => simp [framesLoop, framesVals]
    | cons l ls =>
      simp only [framesLoop, framesVals]
      split
      · simp
      · split
        · simp
        · rw [ih]; simp

theorem calcmf_inplace_eq (xf : Xf) (file : Option (List Line)) (mass : Option (List ℚ))
    (sums : Sums) :
    (calcmf_inplace xf file mass sums).2
      = ((fileVals xf file mass).1, (fileVals xf file mass).2.foldl Sums.add sums) := by
  cases file with
  | none => simp [calcmf_inplace, fileVals]
  | some ls => simp [calcmf_inplace, fileVals, framesLoop_eq]

/-! ## The values depend on the first `np` entries of the buffers only -/

theorem at3_append_left (a b : List Vec3) (i : Nat) (h : i < a.length) :
    at3 (a ++ b) i = at3 a i := by
  unfold at3
  rw [List.getD_eq_getElem?_getD, List.getD_eq_getElem?_getD, List.getElem?_append_left h]

theorem calcrf_congr (f g : List Vec3) (np : Nat) (h : ∀ i, i < np → at3 f i = at3 g i) :
    calcrf f np = calcrf g np := by
  unfold calcrf
  simp only
  congr 1
  apply List.foldl_ext
  intro a i hi
  rw [h i (List.mem_range.mp hi)]

theorem calctorq_congr (x f g : List Vec3) (np : Nat) (xc0 xc1 : DVec3)
    (h : ∀ i, i < np → at3 f i = at3 g i) :
    calctorq x f np xc0 xc1 = calctorq x g np xc0 xc1 := by
  unfold calctorq
  simp only
  have : (List.range np).foldl (calctorq_step x f (np / 2) xc0 xc1) (Dbl.fin 0, Dbl.fin 0)
      = (List.range np).foldl (calctorq_step x g (np / 2) xc0 xc1) (Dbl.fin 0, Dbl.fin 0) := by
    apply List.foldl_ext
    intro a i hi
    simp only [calctorq_step, h i (List.mem_range.mp hi)]
  rw [this]

theorem frameValues_congr (x f g : List Vec3) (np : Nat) (xc : DVec3 × DVec3)
    (h : ∀ i, i < np → at3 f i = at3 g i) :
    frameValues x f np xc = frameValues x g np xc := by
  unfold frameValues
  rw [calcrf_congr f g np h, calctorq_congr x f g np xc.1 xc.2 h]

theorem frameValues_overwrite (x buf F : List Vec3) (np : Nat) (xc : DVec3 × DVec3)
    (h : F.length = np) :
    frameValues x (overwrite buf F) np xc = frameValues x F np xc := by
  apply frameValues_congr
  intro i hi
  exact at3_append_left _ _ _ (by omega)

/-! ## Complete frames -/

theorem zipWith_scanForce_atom (olds : List Vec3) (atoms : List (Vec3 × Vec3))
    (h : olds.length = atoms.length) :
    List.zipWith scanForce olds (atoms.map (fun a => Line.atom a.1 a.2))
      = atoms.map Prod.snd := by
  induction atoms generalizing olds with
  | nil => simp
  | cons a atoms ih =>
    cases olds with
    | nil => simp at h
    | cons o olds =>
      simp only [List.length_cons, Nat.succ.injEq] at h
      simp only [List.map_cons, List.zipWith_cons_cons, ih olds h]
      simp [scanForce, Line.atom]

theorem readAtoms_frame (nfr np : Nat) (atoms : List (Vec3 × Vec3)) (rest : List Line)
    (x f : List Vec3) (hlen : atoms.length = np) (hx : np ≤ x.length) (hf : np ≤ f.length) :
    readAtoms nfr 0 np (atoms.map (fun a => Line.atom a.1 a.2) ++ rest) x f
      = ⟨np, if nfr = 0 then overwrite x (atoms.map Prod.fst) else x,
          overwrite f (atoms.map Prod.snd), rest⟩ := by
  have key := readAtoms_complete nfr (atoms.map (fun a => Line.atom a.1 a.2)) rest
    [] (x.take np) (x.drop np) [] (f.take np) (f.drop np)
    (by simp [hlen, hx]) (by simp [hlen, hf]) rfl
  simp only [List.length_nil, List.length_map, hlen, Nat.zero_add, List.nil_append,
    List.take_append_drop] at key
  rw [key, zipWith_scanForce_atom _ _ (by simp [hlen, hf])]
  simp [overwrite, hlen, Line.atom, Function.comp_def]

theorem framesVals_frame (np : Nat) (mass : Option (List ℚ)) (fuel : Nat)
    (once : Option (DVec3 × DVec3)) (xf : Xf) (fr : Line × List (Vec3 × Vec3))
    (rest : List Line) (hm : fr.1.marker = true) (hlen : fr.2.length = np)
    (hx : np ≤ xf.x.length) (hf : np ≤ xf.f.length) :
    framesVals np mass (fuel + 1) once xf (frameLines fr ++ rest)
      = ((framesVals np mass fuel
            (some (once.getD (centers (cachedX xf (fr.2.map Prod.fst)) mass np)))
            ⟨xf.np, 1, cachedX xf (fr.2.map Prod.fst), overwrite xf.f (fr.2.map Prod.snd)⟩
            rest).1,
          frameValues (cachedX xf (fr.2.map Prod.fst)) (fr.2.map Prod.snd) np
              (once.getD (centers (cachedX xf (fr.2.map Prod.fst)) mass np))
            :: (framesVals np mass fuel
              (some (once.getD (centers (cachedX xf (fr.2.map Prod.fst)) mass np)))
              ⟨xf.np, 1, cachedX xf (fr.2.map Prod.fst), overwrite xf.f (fr.2.map Prod.snd)⟩
              rest).2) := by
  have hr := readAtoms_frame xf.nfr np fr.2 rest xf.x xf.f hlen hx hf
  have hF : (fr.2.map Prod.snd).length = np := by simp [hlen]
  rw [show frameLines fr ++ rest
      = fr.1 :: (fr.2.map (fun a => Line.atom a.1 a.2) ++ rest) from rfl]
  simp only [framesVals, hm, Bool.true_eq_false, if_false]
  rw [hr]
  simp only [lt_self_iff_false, if_false, cachedX]
  cases once with
  | none => simp [frameValues_overwrite _ _ _ _ _ hF]
  | some c => simp [frameValues_overwrite _ _ _ _ _ hF]

theorem framesVals_tail (np : Nat) (mass : Option (List ℚ)) (fuel : Nat)
    (once : Option (DVec3 × DVec3)) (xf : Xf) (tail : List Line)
    (ht : ∀ l ∈ tail.head?, l.marker = false) :
    framesVals np mass fuel once xf tail = (xf, []) := by
  cases fuel with
  | zero => simp [framesVals]
  | succ fuel =>
    cases tail with
    | nil => simp [framesVals]
    | cons l ls =>
      have : l.marker = false := ht l (by simp)
      simp [framesVals, this]

theorem fileOf_cons (fr : Line × List (Vec3 × Vec3)) (frames : List (Line × List (Vec3 × Vec3)))
    (tail : List Line) : fileOf (fr :: frames) tail = frameLines fr ++ fileOf frames tail := by
  simp [fileOf]

theorem length_overwrite (buf F : List Vec3) (h : F.length ≤ buf.length) :
    (overwrite buf F).length = buf.length := by
  simp [overwrite]; omega

theorem framesVals_steady (np : Nat) (mass : Option (List ℚ)) (xc : DVec3 × DVec3)
    (frames : List (Line × List (Vec3 × Vec3))) (tail : List Line)
    (hfr : ∀ fr ∈ frames, fr.1.marker = true ∧ fr.2.length = np)
    (ht : ∀ l ∈ tail.head?, l.marker = false) (fuel : Nat) (xf : Xf)
    (hx : np ≤ xf.x.length) (hf : np ≤ xf.f.length) (hn : xf.nfr ≠ 0)
    (hfuel : (fileOf frames tail).length < fuel) :
    (framesVals np mass fuel (some xc) xf (fileOf frames tail)).2
        = frames.map (fun fr => frameValues xf.x (fr.2.map Prod.snd) np xc)
      ∧ (framesVals np mass fuel (some xc) xf (fileOf frames tail)).1.x = xf.x
      ∧ (framesVals np mass fuel (some xc) xf (fileOf frames tail)).1.nfr ≠ 0
      ∧ (framesVals np mass fuel (some xc) xf (fileOf frames tail)).1.np = xf.np
      ∧ (framesVals np mass fuel (some xc) xf (fileOf frames tail)).1.f.length
          = xf.f.length := by
  induction frames generalizing fuel xf with
  | nil =>
    have : fileOf [] tail = tail := by simp [fileOf]
    rw [this, framesVals_tail np mass fuel _ xf tail ht]
    exact ⟨rfl, rfl, hn, rfl, rfl⟩
  | cons fr frames ih =>
    obtain ⟨hm, hlen⟩ := hfr fr (by simp)
    have hfr2 : ∀ g ∈ frames, g.1.marker = true ∧ g.2.length = np :=
      fun g hg => hfr g (by simp [hg])
    rw [fileOf_cons] at hfuel ⊢
    cases fuel with
    | zero => simp at hfuel
    | succ fuel =>
      have hX : cachedX xf (fr.2.map Prod.fst) = xf.x := by simp [cachedX, hn]
      rw [framesVals_frame np mass fuel (some xc) xf fr _ hm hlen hx hf, hX]
      have hfuel2 : (fileOf frames tail).length < fuel := by
        simp [frameLines] at hfuel; omega
      have hlo : (overwrite xf.f (fr.2.map Prod.snd)).length = xf.f.length :=
        length_overwrite _ _ (by simp [hlen, hf])
      have := ih hfr2 fuel ⟨xf.np, 1, xf.x, overwrite xf.f (fr.2.map Prod.snd)⟩ hx
        (by simp only [hlo]; exact hf) (by simp) hfuel2
      simp only [Option.getD_some, List.map_cons]
      refine ⟨?_, this.2.1, this.2.2.1, this.2.2.2.1, ?_⟩
      · rw [this.1]
      · rw [this.2.2.2.2, hlo]

theorem length_cachedX (xf : Xf) (P : List Vec3) (h : P.length ≤ xf.x.length) :
    (cachedX xf P).length = xf.x.length := by
  unfold cachedX
  split
  · exact length_overwrite _ _ h
  · rfl

theorem fileVals_complete (xf : Xf) (mass : Option (List ℚ))
    (frames : List (Line × List (Vec3 × Vec3))) (tail : List Line)
    (hfr : ∀ fr ∈ frames, fr.1.marker = true ∧ fr.2.length = xf.np)
    (ht : ∀ l ∈ tail.head?, l.marker = false)
    (hx : xf.np ≤ xf.x.length) (hf : xf.np ≤ xf.f.length) :
    (fileVals xf (some (fileOf frames tail)) mass).2
        = extractAll (cachedPos xf frames) mass xf.np frames
      ∧ (fileVals xf (some (fileOf frames tail)) mass).1.x = cachedPos xf frames
      ∧ (frames = [] → (fileVals xf (some (fileOf frames tail)) mass).1.nfr = xf.nfr)
      ∧ (frames ≠ [] → (fileVals xf (some (fileOf frames tail)) mass).1.nfr ≠ 0)
      ∧ (fileVals xf (some (fileOf frames tail)) mass).1.np = xf.np
      ∧ (fileVals xf (some (fileOf frames tail)) mass).1.f.length = xf.f.length := by
  cases frames with
  | nil =>
    have : fileOf [] tail = tail := by simp [fileOf]
    simp only [fileVals, this, framesVals_tail xf.np mass _ none xf tail ht]
    simp [extractAll, cachedPos]
  | cons fr frames =>
    obtain ⟨hm, hlen⟩ := hfr fr (by simp)
    have hfr2 : ∀ g ∈ frames, g.1.marker = true ∧ g.2.length = xf.np :=
      fun g hg => hfr g (by simp [hg])
    have hXlen : (cachedX xf (fr.2.map Prod.fst)).length = xf.x.length :=
      length_cachedX _ _ (by simp [hlen, hx])
    have hlo : (overwrite xf.f (fr.2.map Prod.snd)).length = xf.f.length :=
      length_overwrite _ _ (by simp [hlen, hf])
    have hfuel : (fileOf frames tail).length < (fileOf (fr :: frames) tail).length := by
      rw [fileOf_cons]; simp [frameLines]; omega
    have st := framesVals_steady xf.np mass
      (centers (cachedX xf (fr.2.map Prod.fst)) mass xf.np) frames tail hfr2 ht
      (fileOf (fr :: frames) tail).length
      ⟨xf.np, 1, cachedX xf (fr.2.map Prod.fst), overwrite xf.f (fr.2.map Prod.snd)⟩
      (by simp only [hXlen]; exact hx) (by simp only [hlo]; exact hf) (by simp) hfuel
    simp only [fileVals]
    rw [show (fileOf (fr :: frames) tail) = frameLines fr ++ fileOf frames tail from
      fileOf_cons fr frames tail] at st ⊢
    rw [framesVals_frame xf.np mass _ none xf fr _ hm hlen hx hf]
    simp only [Option.getD_none]
    refine ⟨?_, st.2.1, by simp, fun _ => st.2.2.1, st.2.2.2.1, ?_⟩
    · rw [st.1]; simp [extractAll, cachedPos]
    · rw [st.2.2.2.2, hlo]

/-! ## The sums after a list of frame values -/

theorem Dbl.addAssoc (a b c : Dbl) : a + b + c = a + (b + c) := by
  cases a with
  | none => rfl
  | some a =>
    cases b with
    | none => rfl
    | some b =>
      cases c with
      | none => rfl
      | some c =>
        show Dbl.fin (a + b + c) = Dbl.fin (a + (b + c))
        rw [add_assoc]

theorem Dbl.addFinZero (a : Dbl) : a + Dbl.fin 0 = a := by
  cases a with
  | none => rfl
  | some a =>
    show Dbl.fin (a + 0) = Dbl.fin a
    rw [add_zero]

theorem foldl_accum (vs : List Dbl) (a : Acc) : vs.foldl accum a = addAll a vs := by
  induction vs generalizing a with
  | nil => simp [addAll, dsum, Dbl.addFinZero]
  | cons v vs ih =>
    rw [List.foldl_cons, ih]
    simp only [addAll, accum, dsum, List.length_cons, List.map_cons, List.foldr_cons,
      Dbl.addAssoc, Dbl.fin_add, Nat.cast_succ]
    congr 3
    ring

theorem foldl_Sums_add (vals : List (Dbl × Dbl × Dbl)) (s : Sums) :
    vals.foldl Sums.add s
      = ⟨addAll s.s0 (vals.map (fun v => v.1)), addAll s.s1 (vals.map (fun v => v.2.1)),
          addAll s.s2 (vals.map (fun v => v.2.2))⟩ := by
  induction vals generalizing s with
  | nil => simp [addAll, dsum, Dbl.addFinZero]
  | cons v vals ih =>
    rw [List.foldl_cons, ih]
    simp only [Sums.add, List.map_cons, ← foldl_accum, List.foldl_cons]

/-- C4: for every file made of `k ≥ 0` complete frames (a marker line, then
`np` atom lines) followed by the end of the input or by a line that is no
marker and then any lines, `calcmf_inplace` returns 0 and leaves each of the
three rows with its count increased by `k`, its sum by the sum of the extractor
values of the `k` frames and its square sum by the sum of their squares; the
lines after the frames have no influence: the sums are those of the file cut
after its last frame. -/
theorem calcmf_inplace_complete (xf : Xf) (mass : Option (List ℚ)) (sums : Sums)
    (frames : List (Line × List (Vec3 × Vec3))) (tail : List Line)
    (hfr : ∀ fr ∈ frames, fr.1.marker = true ∧ fr.2.length = xf.np)
    (ht : ∀ l ∈ tail.head?, l.marker = false)
    (hx : xf.np ≤ xf.x.length) (hf : xf.np ≤ xf.f.length) :
    (calcmf_inplace xf (some (fileOf frames tail)) mass sums).1 = 0
      ∧ (calcmf_inplace xf (some (fileOf frames tail)) mass sums).2.2.s0
          = addAll sums.s0
              ((extractAll (cachedPos xf frames) mass xf.np frames).map (fun v => v.1))
      ∧ (calcmf_inplace xf (some (fileOf frames tail)) mass sums).2.2.s1
          = addAll sums.s1
              ((extractAll (cachedPos xf frames) mass xf.np frames).map (fun v => v.2.1))
      ∧ (calcmf_inplace xf (some (fileOf frames tail)) mass sums).2.2.s2
          = addAll sums.s2
              ((extractAll (cachedPos xf frames) mass xf.np frames).map (fun v => v.2.2))
      ∧ (calcmf_inplace xf (some (fileOf frames tail)) mass sums).2.2.s0.cnt
          = sums.s0.cnt + Dbl.fin frames.length
      ∧ (calcmf_inplace xf (some (fileOf frames tail)) mass sums).2.2.s1.cnt
          = sums.s1.cnt + Dbl.fin frames.length
      ∧ (calcmf_inplace xf (some (fileOf frames tail)) mass sums).2.2.s2.cnt
          = sums.s2.cnt + Dbl.fin frames.length
      ∧ (calcmf_inplace xf (some (fileOf frames tail)) mass sums).2.2
          = (calcmf_inplace xf (some (fileOf frames [])) mass sums).2.2 := by
  have h1 := (fileVals_complete xf mass frames tail hfr ht hx hf).1
  have h2 := (fileVals_complete xf mass frames [] hfr (by simp) hx hf).1
  have e1 : (calcmf_inplace xf (some (fileOf frames tail)) mass sums).2.2
      = (extractAll (cachedPos xf frames) mass xf.np frames).foldl Sums.add sums := by
    rw [calcmf_inplace_eq, h1]
  have e2 : (calcmf_inplace xf (some (fileOf frames [])) mass sums).2.2
      = (extractAll (cachedPos xf frames) mass xf.np frames).foldl Sums.add sums := by
    rw [calcmf_inplace_eq, h2]
  rw [e1, e2, foldl_Sums_add]
  refine ⟨rfl, rfl, rfl, rfl, ?_, ?_, ?_, rfl⟩ <;> simp [addAll, extractAll]

/-- C4, witness: two atoms, a file of one complete frame followed by a line
that is no marker and by a further marker line; the count of the radial force
goes from 0 to 1 and its sum is the radial force `(3 - 1) / 2 = 1` of the frame. -/
theorem calcmf_inplace_complete_witness :
    (calcmf_inplace ⟨2, 0, [⟨0, 0, 0⟩, ⟨0, 0, 0⟩], [⟨0, 0, 0⟩, ⟨0, 0, 0⟩]⟩
        (some (fileOf [(Line.timestep, [(⟨0, 0, 0⟩, ⟨1, 0, 0⟩), (⟨1, 0, 0⟩, ⟨3, 0, 0⟩)])]
          [Line.atom ⟨5, 5, 5⟩ ⟨7, 7, 7⟩, Line.timestep])) none Sums.zero).2.2.s0
      = ⟨Dbl.fin 1, Dbl.fin 1, Dbl.fin 1⟩ := by
  have key := (calcmf_inplace_complete
    ⟨2, 0, [⟨0, 0, 0⟩, ⟨0, 0, 0⟩], [⟨0, 0, 0⟩, ⟨0, 0, 0⟩]⟩ none Sums.zero
    [(Line.timestep, [(⟨0, 0, 0⟩, ⟨1, 0, 0⟩), (⟨1, 0, 0⟩, ⟨3, 0, 0⟩)])]
    [Line.atom ⟨5, 5, 5⟩ ⟨7, 7, 7⟩, Line.timestep]
    (by simp [Line.timestep]) (by simp [Line.atom]) (by simp) (by simp)).2.1
  rw [key]
  simp [addAll, extractAll, frameValues, Sums.zero, dsum, calcrf, at3, List.range_succ]
  norm_num

/-! ## A frame cut short by the end of the input -/

/-- C5, the code at a failing input: two atoms, one complete frame with x
forces 1 and 3, then a marker and a single atom line with x force 10. The
frame cut short is accumulated as well: the count of the radial force is 2 and
not 1, and its sum is `1 + (3 - 10) / 2 = -5/2`, the second term mixing the
force 10 just read with the force 3 left in the buffer by the frame before. -/
theorem calcmf_inplace_truncated :
    (calcmf_inplace ⟨2, 0, [⟨0, 0, 0⟩, ⟨0, 0, 0⟩], [⟨0, 0, 0⟩, ⟨0, 0, 0⟩]⟩
        (some [Line.timestep, Line.atom ⟨0, 0, 0⟩ ⟨1, 0, 0⟩, Line.atom ⟨1, 0, 0⟩ ⟨3, 0, 0⟩,
          Line.timestep, Line.atom ⟨0, 0, 0⟩ ⟨10, 0, 0⟩]) none Sums.zero).2.2.s0
      = ⟨Dbl.fin 2, Dbl.fin (-5 / 2), Dbl.fin (53 / 4)⟩ := by
  simp [calcmf_inplace, framesLoop, readAtoms, Line.timestep, Line.atom, scanForce, at3,
    frameValues, calcrf, Sums.add, Sums.zero, accum, List.range_succ]
  norm_num

/-! ## The cached positions -/

theorem framesVals_fixed (np : Nat) (mass : Option (List ℚ)) (fuel : Nat)
    (once : Option (DVec3 × DVec3)) (xf : Xf) (ls : List Line) (hn : xf.nfr ≠ 0)
    (ho : once = none ∨ once = some (centers xf.x mass np)) :
    (framesVals np mass fuel once xf ls).1.x = xf.x
      ∧ (framesVals np mass fuel once xf ls).1.nfr ≠ 0
      ∧ (framesVals np mass fuel once xf ls).1.np = xf.np
      ∧ ∀ v ∈ (framesVals np mass fuel once xf ls).2,
          ∃ F, v = frameValues xf.x F np (centers xf.x mass np) := by
  induction fuel generalizing once xf ls with
  | zero => simp [framesVals, hn]
  | succ fuel ih =>
    cases ls with
    | nil => simp [framesVals, hn]
    | cons l ls =>
      have hrx : (readAtoms xf.nfr 0 np ls xf.x xf.f).x = xf.x :=
        readAtoms_nfr_ne_zero xf.nfr hn 0 np ls xf.x xf.f
      have key : ∀ c : Option (DVec3 × DVec3), (c = none ∨ c = some (centers xf.x mass np)) →
          (match c with
            | some d => d
            | none => centers xf.x mass np) = centers xf.x mass np := by
        intro c hc
        rcases hc with h | h <;> subst h <;> rfl
      simp only [framesVals, hrx]
      split
      · simp [hn]
      · rw [key once ho]
        split
        · refine ⟨rfl, hn, rfl, ?_⟩
          intro v hv
          simp only [List.mem_singleton] at hv
          exact ⟨_, hv⟩
        · have := ih (some (centers xf.x mass np))
            ⟨xf.np, 1, xf.x, (readAtoms xf.nfr 0 np ls xf.x xf.f).f⟩
            (readAtoms xf.nfr 0 np ls xf.x xf.f).rest (by simp) (Or.inr rfl)
          refine ⟨this.1, this.2.1, this.2.2.1, ?_⟩
          intro v hv
          simp only [List.mem_cons] at hv
          rcases hv with h | h
          · exact ⟨_, h⟩
          · exact this.2.2.2 v h

theorem fileVals_fixed (xf : Xf) (file : Option (List Line)) (mass : Option (List ℚ))
    (hn : xf.nfr ≠ 0) :
    (fileVals xf file mass).1.x = xf.x
      ∧ (fileVals xf file mass).1.nfr ≠ 0
      ∧ (fileVals xf file mass).1.np = xf.np
      ∧ ∀ v ∈ (fileVals xf file mass).2,
          ∃ F, v = frameValues xf.x F xf.np (centers xf.x mass xf.np) := by
  cases file with
  | none => simp [fileVals, hn]
  | some ls => exact framesVals_fixed xf.np mass _ none xf ls hn (Or.inl rfl)

theorem fileVals_first_frame (xf : Xf) (mass : Option (List ℚ))
    (fr : Line × List (Vec3 × Vec3)) (rest : List Line)
    (hm : fr.1.marker = true) (hlen : fr.2.length = xf.np)
    (hx : xf.np ≤ xf.x.length) (hf : xf.np ≤ xf.f.length) :
    (fileVals xf (some (frameLines fr ++ rest)) mass).1.x = cachedX xf (fr.2.map Prod.fst)
      ∧ (fileVals xf (some (frameLines fr ++ rest)) mass).1.nfr ≠ 0
      ∧ (fileVals xf (some (frameLines fr ++ rest)) mass).1.np = xf.np
      ∧ ∀ v ∈ (fileVals xf (some (frameLines fr ++ rest)) mass).2,
          ∃ F, v = frameValues (cachedX xf (fr.2.map Prod.fst)) F xf.np
            (centers (cachedX xf (fr.2.map Prod.fst)) mass xf.np) := by
  simp only [fileVals]
  rw [framesVals_frame xf.np mass _ none xf fr rest hm hlen hx hf]
  have := framesVals_fixed xf.np mass (frameLines fr ++ rest).length
    (some (centers (cachedX xf (fr.2.map Prod.fst)) mass xf.np))
    ⟨xf.np, 1, cachedX xf (fr.2.map Prod.fst), overwrite xf.f (fr.2.map Prod.snd)⟩ rest
    (by simp) (Or.inr rfl)
  simp only [Option.getD_none]
  refine ⟨this.1, this.2.1, this.2.2.1, ?_⟩
  intro v hv
  simp only [List.mem_cons] at hv
  rcases hv with h | h
  · exact ⟨_, h⟩
  · exact this.2.2.2 v h

/-- C7: within one call of `calcmf_inplace` on a file that starts with a
complete frame followed by any lines at all, the position buffer at the end is
the one left by the first frame (the buffer overwritten by the positions of
that frame when `nfr == 0` on entry), whatever the later lines hold, and every
frame value added to the sums is computed by `calcrf` and `calctorq` from that
position buffer, some force buffer and the two centers of mass of that position
buffer. -/
theorem calcmf_inplace_positions_fixed (xf : Xf) (mass : Option (List ℚ)) (sums : Sums)
    (fr : Line × List (Vec3 × Vec3)) (rest : List Line)
    (hm : fr.1.marker = true) (hlen : fr.2.length = xf.np)
    (hx : xf.np ≤ xf.x.length) (hf : xf.np ≤ xf.f.length) :
    (calcmf_inplace xf (some (frameLines fr ++ rest)) mass sums).2.1.x
        = cachedX xf (fr.2.map Prod.fst)
      ∧ (calcmf_inplace xf (some (frameLines fr ++ rest)) mass sums).2.1.x
        = (calcmf_inplace xf (some (frameLines fr)) mass sums).2.1.x
      ∧ (calcmf_inplace xf (some (frameLines fr ++ rest)) mass sums).2.2
        = (fileVals xf (some (frameLines fr ++ rest)) mass).2.foldl Sums.add sums
      ∧ ∀ v ∈ (fileVals xf (some (frameLines fr ++ rest)) mass).2,
          ∃ F, v = (Dbl.fin (calcrf F xf.np),
            (calctorq (cachedX xf (fr.2.map Prod.fst)) F xf.np
              (calccom (cachedX xf (fr.2.map Prod.fst)) mass (xf.np / 2))
              (calccom ((cachedX xf (fr.2.map Prod.fst)).drop (xf.np / 2)) mass (xf.np / 2))).1,
            (calctorq (cachedX xf (fr.2.map Prod.fst)) F xf.np
              (calccom (cachedX xf (fr.2.map Prod.fst)) mass (xf.np / 2))
              (calccom ((cachedX xf (fr.2.map Prod.fst)).drop (xf.np / 2)) mass
                (xf.np / 2))).2) := by
  have h1 := fileVals_first_frame xf mass fr rest hm hlen hx hf
  have h2 := fileVals_first_frame xf mass fr [] hm hlen hx hf
  rw [List.append_nil] at h2
  rw [calcmf_inplace_eq, calcmf_inplace_eq]
  exact ⟨h1.1, by rw [h1.1, h2.1], rfl, h1.2.2.2⟩

/-- C7, witness: two atoms, a first frame with positions `(0,0,0), (1,0,0)` and
a second frame whose lines carry the positions `(7,7,7), (9,9,9)`: the buffer
keeps the positions of the first frame. -/
theorem calcmf_inplace_positions_fixed_witness :
    (calcmf_inplace ⟨2, 0, [⟨0, 0, 0⟩, ⟨0, 0, 0⟩], [⟨0, 0, 0⟩, ⟨0, 0, 0⟩]⟩
        (some (frameLines (Line.timestep, [(⟨0, 0, 0⟩, ⟨1, 0, 0⟩), (⟨1, 0, 0⟩, ⟨3, 0, 0⟩)])
          ++ [Line.timestep, Line.atom ⟨7, 7, 7⟩ ⟨1, 0, 0⟩, Line.atom ⟨9, 9, 9⟩ ⟨3, 0, 0⟩]))
        none Sums.zero).2.1.x
      = [⟨0, 0, 0⟩, ⟨1, 0, 0⟩] := by
  rw [(calcmf_inplace_positions_fixed
    ⟨2, 0, [⟨0, 0, 0⟩, ⟨0, 0, 0⟩], [⟨0, 0, 0⟩, ⟨0, 0, 0⟩]⟩ none Sums.zero
    (Line.timestep, [(⟨0, 0, 0⟩, ⟨1, 0, 0⟩), (⟨1, 0, 0⟩, ⟨3, 0, 0⟩)])
    [Line.timestep, Line.atom ⟨7, 7, 7⟩ ⟨1, 0, 0⟩, Line.atom ⟨9, 9, 9⟩ ⟨3, 0, 0⟩]
    (by simp [Line.timestep]) (by simp) (by simp) (by simp)).1]
  simp [cachedX, overwrite]

/-! ## The run of `mf_dolist` over the files -/

theorem mf_dolist_loop_state (mass : Option (List ℚ)) (fns : List (Option (List Line)))
    (xf : Xf) (sums : Sums) (out : List Report) :
    (mf_dolist_loop mass fns xf sums out).1 = runXf mass fns xf
      ∧ (mf_dolist_loop mass fns xf sums out).2.1
          = (runVals mass fns xf).flatten.foldl Sums.add sums := by
  induction fns generalizing xf sums out with
  | nil => simp [mf_dolist_loop, runXf, runVals]
  | cons file fns ih =>
    simp only [mf_dolist_loop, runXf, runVals, List.flatten_cons, List.foldl_append,
      calcmf_inplace_eq]
    exact ih _ _ _

theorem pooledVals_zero (mass : Option (List ℚ)) (file : Option (List Line))
    (fns : List (Option (List Line))) (xf : Xf) :
    pooledVals mass (file :: fns) xf 0 = (fileVals xf file mass).2 := by
  simp [pooledVals, runVals]

theorem pooledVals_succ (mass : Option (List ℚ)) (file : Option (List Line))
    (fns : List (Option (List Line))) (xf : Xf) (j : Nat) :
    pooledVals mass (file :: fns) xf (j + 1)
      = (fileVals xf file mass).2 ++ pooledVals mass fns (fileVals xf file mass).1 j := by
  simp [pooledVals, runVals]

theorem mf_dolist_loop_out (mass : Option (List ℚ)) (fns : List (Option (List Line)))
    (xf : Xf) (sums : Sums) (out : List Report) :
    (mf_dolist_loop mass fns xf sums out).2.2
      = out ++ (List.range fns.length).map
          (fun j => reportOf ((pooledVals mass fns xf j).foldl Sums.add sums)) := by
  induction fns generalizing xf sums out with
  | nil => simp [mf_dolist_loop]
  | cons file fns ih =>
    simp only [mf_dolist_loop, calcmf_inplace_eq]
    rw [ih, List.length_cons, List.range_succ_eq_map, List.map_cons, List.map_map,
      pooledVals_zero, List.append_assoc]
    congr 1
    rw [List.singleton_append]
    congr 1
    apply List.map_congr_left
    intro j _
    simp [pooledVals_succ, List.foldl_append, reportOf]

theorem statOf_cnt (vs : List Dbl) : (statOf vs).cnt = Dbl.fin vs.length := by
  simp [statOf, finalize, addAll]

theorem reportOf_foldl_zero (vals : List (Dbl × Dbl × Dbl)) :
    reportOf (vals.foldl Sums.add Sums.zero)
      = ⟨statOf (vals.map (fun v => v.1)), statOf (vals.map (fun v => v.2.1)),
          statOf (vals.map (fun v => v.2.2))⟩ := by
  rw [foldl_Sums_add]
  rfl

/-- C8: for every list of files, the sums of `mf_dolist` are never reset between
the files: the line printed after file `j` (counted from 0) holds, for each of
the three quantities, the statistics of the frame values of the files `0 .. j`
pooled: the count printed is the number of all these frames and the mean and
deviation are those of all these values. -/
theorem mf_dolist_pooled (xf : Xf) (fns : List (Option (List Line)))
    (mass : Option (List ℚ)) (j : Nat) (hj : j < fns.length) :
    ∃ r : Report, (mf_dolist xf fns mass).2.2[j]? = some r
      ∧ r.f = statOf ((pooledVals mass fns xf j).map (fun v => v.1))
      ∧ r.torq = statOf ((pooledVals mass fns xf j).map (fun v => v.2.1))
      ∧ r.symmtorq = statOf ((pooledVals mass fns xf j).map (fun v => v.2.2))
      ∧ r.f.cnt = Dbl.fin (pooledVals mass fns xf j).length
      ∧ r.torq.cnt = Dbl.fin (pooledVals mass fns xf j).length
      ∧ r.symmtorq.cnt = Dbl.fin (pooledVals mass fns xf j).length := by
  refine ⟨reportOf ((pooledVals mass fns xf j).foldl Sums.add Sums.zero), ?_, ?_⟩
  · unfold mf_dolist
    rw [mf_dolist_loop_out]
    simp [hj]
  · rw [reportOf_foldl_zero]
    simp [statOf_cnt]

/-- C8, witness: two files of one frame each; the line printed after the second
file counts 2 frames for each quantity. -/
theorem mf_dolist_pooled_witness :
    ∃ r : Report,
      (mf_dolist ⟨2, 0, [⟨0, 0, 0⟩, ⟨0, 0, 0⟩], [⟨0, 0, 0⟩, ⟨0, 0, 0⟩]⟩
        [some [Line.timestep, Line.atom ⟨0, 0, 0⟩ ⟨1, 0, 0⟩, Line.atom ⟨1, 0, 0⟩ ⟨3, 0, 0⟩],
          some [Line.timestep, Line.atom ⟨0, 0, 0⟩ ⟨2, 0, 0⟩, Line.atom ⟨1, 0, 0⟩ ⟨8, 0, 0⟩]]
        none).2.2[1]? = some r
      ∧ r.f.cnt = Dbl.fin 2 ∧ r.torq.cnt = Dbl.fin 2 ∧ r.symmtorq.cnt = Dbl.fin 2 := by
  obtain ⟨r, h1, _, _, _, h5, h6, h7⟩ := mf_dolist_pooled
    ⟨2, 0, [⟨0, 0, 0⟩, ⟨0, 0, 0⟩], [⟨0, 0, 0⟩, ⟨0, 0, 0⟩]⟩
    [some [Line.timestep, Line.atom ⟨0, 0, 0⟩ ⟨1, 0, 0⟩, Line.atom ⟨1, 0, 0⟩ ⟨3, 0, 0⟩],
      some [Line.timestep, Line.atom ⟨0, 0, 0⟩ ⟨2, 0, 0⟩, Line.atom ⟨1, 0, 0⟩ ⟨8, 0, 0⟩]]
    none 1 (by simp)
  have hlen : (pooledVals none
      [some [Line.timestep, Line.atom ⟨0, 0, 0⟩ ⟨1, 0, 0⟩, Line.atom ⟨1, 0, 0⟩ ⟨3, 0, 0⟩],
        some [Line.timestep, Line.atom ⟨0, 0, 0⟩ ⟨2, 0, 0⟩, Line.atom ⟨1, 0, 0⟩ ⟨8, 0, 0⟩]]
      ⟨2, 0, [⟨0, 0, 0⟩, ⟨0, 0, 0⟩], [⟨0, 0, 0⟩, ⟨0, 0, 0⟩]⟩ 1).length = 2 := by
    simp [pooledVals, runVals, fileVals, framesVals, readAtoms, Line.timestep, Line.atom]
  rw [hlen] at h5 h6 h7
  exact ⟨r, h1, by simpa using h5, by simpa using h6, by simpa using h7⟩

/-! ## The positions are cached once for the whole run -/

theorem run_fixed (mass : Option (List ℚ)) (fns : List (Option (List Line))) (xf : Xf)
    (hn : xf.nfr ≠ 0) :
    (runXf mass fns xf).x = xf.x
      ∧ ∀ vs ∈ runVals mass fns xf, ∀ v ∈ vs,
          ∃ F, v = frameValues xf.x F xf.np (centers xf.x mass xf.np) := by
  induction fns generalizing xf with
  | nil => simp [runXf, runVals]
  | cons file fns ih =>
    have h := fileVals_fixed xf file mass hn
    have h2 := ih (fileVals xf file mass).1 h.2.1
    rw [h.1, h.2.2.1] at h2
    simp only [runXf, runVals]
    refine ⟨h2.1, ?_⟩
    intro vs hvs
    simp only [List.mem_cons] at hvs
    rcases hvs with e | e
    · subst e; exact h.2.2.2
    · exact h2.2 vs e

/-- C6 (as amended): in a run of `mf_dolist` over a list of files sharing one
buffer with `nfr == 0` at the start, when the first file starts with a complete
frame, the position buffer at the end of the run is the one holding the
positions of that frame, and every frame value accumulated for any file of the
list is computed from these positions and their two centers of mass: the
positions are cached once for the run, not once for each file. -/
theorem mf_dolist_positions_once (xf : Xf) (mass : Option (List ℚ))
    (fr : Line × List (Vec3 × Vec3)) (rest : List Line) (fns : List (Option (List Line)))
    (h0 : xf.nfr = 0) (hm : fr.1.marker = true) (hlen : fr.2.length = xf.np)
    (hx : xf.np ≤ xf.x.length) (hf : xf.np ≤ xf.f.length) :
    (mf_dolist xf (some (frameLines fr ++ rest) :: fns) mass).1.x
        = overwrite xf.x (fr.2.map Prod.fst)
      ∧ (mf_dolist xf (some (frameLines fr ++ rest) :: fns) mass).2.1
        = (runVals mass (some (frameLines fr ++ rest) :: fns) xf).flatten.foldl
            Sums.add Sums.zero
      ∧ ∀ vs ∈ runVals mass (some (frameLines fr ++ rest) :: fns) xf, ∀ v ∈ vs,
          ∃ F, v = frameValues (overwrite xf.x (fr.2.map Prod.fst)) F xf.np
            (centers (overwrite xf.x (fr.2.map Prod.fst)) mass xf.np) := by
  have hX : cachedX xf (fr.2.map Prod.fst) = overwrite xf.x (fr.2.map Prod.fst) := by
    simp [cachedX, h0]
  have h1 := fileVals_first_frame xf mass fr rest hm hlen hx hf
  rw [hX] at h1
  have h2 := run_fixed mass fns (fileVals xf (some (frameLines fr ++ rest)) mass).1 h1.2.1
  rw [h1.1, h1.2.2.1] at h2
  have h3 := mf_dolist_loop_state mass (some (frameLines fr ++ rest) :: fns) xf Sums.zero []
  unfold mf_dolist
  refine ⟨?_, h3.2, ?_⟩
  · rw [h3.1]; exact h2.1
  · intro vs hvs
    simp only [runVals, List.mem_cons] at hvs
    rcases hvs with e | e
    · subst e; exact h1.2.2.2
    · exact h2.2 vs e

/-- C6, witness: two files of one frame each, with different positions. -/
theorem mf_dolist_positions_once_witness :
    (mf_dolist ⟨2, 0, [⟨0, 0, 0⟩, ⟨0, 0, 0⟩], [⟨0, 0, 0⟩, ⟨0, 0, 0⟩]⟩
      (some (frameLines (Line.timestep, [(⟨0, 0, 0⟩, ⟨1, 0, 0⟩), (⟨1, 0, 0⟩, ⟨3, 0, 0⟩)]) ++ [])
        :: [some [Line.timestep, Line.atom ⟨5, 5, 5⟩ ⟨2, 0, 0⟩, Line.atom ⟨6, 6, 6⟩ ⟨8, 0, 0⟩]])
      none).1.x
      = [⟨0, 0, 0⟩, ⟨1, 0, 0⟩] := by
  rw [(mf_dolist_positions_once ⟨2, 0, [⟨0, 0, 0⟩, ⟨0, 0, 0⟩], [⟨0, 0, 0⟩, ⟨0, 0, 0⟩]⟩ none
    (Line.timestep, [(⟨0, 0, 0⟩, ⟨1, 0, 0⟩), (⟨1, 0, 0⟩, ⟨3, 0, 0⟩)]) []
    [some [Line.timestep, Line.atom ⟨5, 5, 5⟩ ⟨2, 0, 0⟩, Line.atom ⟨6, 6, 6⟩ ⟨8, 0, 0⟩]]
    rfl (by simp [Line.timestep]) (by simp) (by simp) (by simp)).1]
  simp [overwrite]

/-- C6, counterexample: four atoms, two files of one complete frame each. The
second file has the positions `(0,0,0), (2,0,0), (0,4,0), (6,4,0)`, but after the
run the buffer holds the positions `(0,0,0), (2,0,0), (0,4,0), (2,4,0)` of the
first file, and the torque accumulated for the frame of the second file is 1,
computed from the positions of the first file; from the positions of the second
file itself it would be 3. -/
theorem mf_dolist_positions_not_per_file :
    (mf_dolist ⟨4, 0, [⟨0, 0, 0⟩, ⟨0, 0, 0⟩, ⟨0, 0, 0⟩, ⟨0, 0, 0⟩],
        [⟨0, 0, 0⟩, ⟨0, 0, 0⟩, ⟨0, 0, 0⟩, ⟨0, 0, 0⟩]⟩
      [some [Line.timestep, Line.atom ⟨0, 0, 0⟩ ⟨0, 0, 0⟩, Line.atom ⟨2, 0, 0⟩ ⟨0, 0, 0⟩,
          Line.atom ⟨0, 4, 0⟩ ⟨0, 0, 0⟩, Line.atom ⟨2, 4, 0⟩ ⟨0, 1, 0⟩],
        some [Line.timestep, Line.atom ⟨0, 0, 0⟩ ⟨0, 0, 0⟩, Line.atom ⟨2, 0, 0⟩ ⟨0, 0, 0⟩,
          Line.atom ⟨0, 4, 0⟩ ⟨0, 0, 0⟩, Line.atom ⟨6, 4, 0⟩ ⟨0, 1, 0⟩]] none).1.x
      = [⟨0, 0, 0⟩, ⟨2, 0, 0⟩, ⟨0, 4, 0⟩, ⟨2, 4, 0⟩]
    ∧ runVals none
      [some [Line.timestep, Line.atom ⟨0, 0, 0⟩ ⟨0, 0, 0⟩, Line.atom ⟨2, 0, 0⟩ ⟨0, 0, 0⟩,
          Line.atom ⟨0, 4, 0⟩ ⟨0, 0, 0⟩, Line.atom ⟨2, 4, 0⟩ ⟨0, 1, 0⟩],
        some [Line.timestep, Line.atom ⟨0, 0, 0⟩ ⟨0, 0, 0⟩, Line.atom ⟨2, 0, 0⟩ ⟨0, 0, 0⟩,
          Line.atom ⟨0, 4, 0⟩ ⟨0, 0, 0⟩, Line.atom ⟨6, 4, 0⟩ ⟨0, 1, 0⟩]]
      ⟨4, 0, [⟨0, 0, 0⟩, ⟨0, 0, 0⟩, ⟨0, 0, 0⟩, ⟨0, 0, 0⟩],
        [⟨0, 0, 0⟩, ⟨0, 0, 0⟩, ⟨0, 0, 0⟩, ⟨0, 0, 0⟩]⟩
      = [[(Dbl.fin 0, Dbl.fin 1, Dbl.fin (1 / 2))], [(Dbl.fin 0, Dbl.fin 1, Dbl.fin (1 / 2))]]
    ∧ frameValues [⟨0, 0, 0⟩, ⟨2, 0, 0⟩, ⟨0, 4, 0⟩, ⟨6, 4, 0⟩]
        [⟨0, 0, 0⟩, ⟨0, 0, 0⟩, ⟨0, 0, 0⟩, ⟨0, 1, 0⟩] 4
        (centers [⟨0, 0, 0⟩, ⟨2, 0, 0⟩, ⟨0, 4, 0⟩, ⟨6, 4, 0⟩] none 4)
      = (Dbl.fin 0, Dbl.fin 3, Dbl.fin (3 / 2)) := by
  refine ⟨?_, ?_, ?_⟩
  · simp [mf_dolist, mf_dolist_loop, calcmf_inplace, framesLoop, readAtoms, Line.timestep,
      Line.atom]
  · simp [runVals, fileVals, framesVals, readAtoms, Line.timestep, Line.atom, scanForce, at3,
      frameValues, calcrf, calctorq, calctorq_step, centers, calccom, calccom_step, massAt,
      List.range_succ, Dbl.fin_div]
    norm_num
  · simp [frameValues, calcrf, calctorq, calctorq_step, centers, calccom, calccom_step, massAt,
      at3, List.range_succ, Dbl.fin_div]
    norm_num

/-! ## `calccom` -/

theorem calccom_fold (x : List Vec3) (m : Option (List ℚ)) (l : List Nat)
    (st : ℚ × ℚ × ℚ × ℚ) :
    l.foldl (calccom_step x m) st
      = (st.1 + sumOver l (fun i => (at3 x i).x * massAt m i),
          st.2.1 + sumOver l (fun i => (at3 x i).y * massAt m i),
          st.2.2.1 + sumOver l (fun i => (at3 x i).z * massAt m i),
          st.2.2.2 + sumOver l (massAt m)) := by
  induction l generalizing st with
  | nil => simp [sumOver]
  | cons i l ih =>
    rw [List.foldl_cons, ih]
    simp only [calccom_step, sumOver, List.map_cons, List.sum_cons, add_assoc]

theorem calccom_formula (x : List Vec3) (m : Option (List ℚ)) (n : Nat) :
    calccom x m n
      = ⟨Dbl.fin (sumOver (List.range n) (fun i => (at3 x i).x * massAt m i))
            / Dbl.fin (sumOver (List.range n) (massAt m)),
          Dbl.fin (sumOver (List.range n) (fun i => (at3 x i).y * massAt m i))
            / Dbl.fin (sumOver (List.range n) (massAt m)),
          Dbl.fin (sumOver (List.range n) (fun i => (at3 x i).z * massAt m i))
            / Dbl.fin (sumOver (List.range n) (massAt m))⟩ := by
  unfold calccom
  simp only [calccom_fold, zero_add]

theorem sumOver_mul_const (l : List Nat) (g : Nat → ℚ) (w : Nat → ℚ) (c : ℚ)
    (h : ∀ i ∈ l, w i = c) :
    sumOver l (fun i => g i * w i) = sumOver l g * c := by
  induction l with
  | nil => simp [sumOver]
  | cons i l ih =>
    have hi : w i = c := h i (by simp)
    have hl : ∀ j ∈ l, w j = c := fun j hj => h j (by simp [hj])
    simp only [sumOver, List.map_cons, List.sum_cons] at ih ⊢
    rw [ih hl, hi]; ring

theorem sumOver_const (l : List Nat) (w : Nat → ℚ) (c : ℚ) (h : ∀ i ∈ l, w i = c) :
    sumOver l w = l.length * c := by
  induction l with
  | nil => simp [sumOver]
  | cons i l ih =>
    have hi : w i = c := h i (by simp)
    have hl : ∀ j ∈ l, w j = c := fun j hj => h j (by simp [hj])
    simp only [sumOver, List.map_cons, List.sum_cons, List.length_cons, Nat.cast_succ] at ih ⊢
    rw [ih hl, hi]; ring

theorem sumOver_range_at3 (x : List Vec3) (p : Vec3 → ℚ) :
    sumOver (List.range x.length) (fun i => p (at3 x i)) = (x.map p).sum := by
  have h := map_at3_range x x.length (le_refl _)
  rw [List.take_length] at h
  unfold sumOver
  have h2 : (List.range x.length).map (fun i => p (at3 x i))
      = ((List.range x.length).map (at3 x)).map p := by
    rw [List.map_map]; rfl
  rw [h2, h]

theorem calccom_uniform (x : List Vec3) (m : Option (List ℚ)) (n : Nat) (w : ℚ)
    (hn : 1 ≤ n) (hlen : x.length = n) (hw : w ≠ 0) (hm : ∀ i, i < n → massAt m i = w) :
    calccom x m n = (meanPos x).toD := by
  have hmem : ∀ i ∈ List.range n, massAt m i = w := fun i hi => hm i (List.mem_range.mp hi)
  have hnq : (n : ℚ) ≠ 0 := by
    have : n ≠ 0 := by omega
    exact_mod_cast this
  have htot : sumOver (List.range n) (massAt m) = n * w := by
    rw [sumOver_const _ _ w hmem]; simp
  have hne : (n : ℚ) * w ≠ 0 := mul_ne_zero hnq hw
  rw [calccom_formula, htot,
    sumOver_mul_const _ (fun i => (at3 x i).x) _ w hmem,
    sumOver_mul_const _ (fun i => (at3 x i).y) _ w hmem,
    sumOver_mul_const _ (fun i => (at3 x i).z) _ w hmem,
    Dbl.fin_div _ _ hne, Dbl.fin_div _ _ hne, Dbl.fin_div _ _ hne]
  subst hlen
  rw [sumOver_range_at3 x Vec3.x, sumOver_range_at3 x Vec3.y, sumOver_range_at3 x Vec3.z]
  simp only [meanPos, mean, Vec3.toD, List.length_map]
  congr 2 <;> field_simp <;> ring

/-- C9 (as amended): for every `n ≥ 1` and every array of `n` positions,
`calccom` with no weight array (`m == NULL`), or with a weight array whose `n`
entries all hold the same weight `w ≠ 0`, returns the component-wise arithmetic
mean of the `n` positions. -/
theorem calccom_mean (x : List Vec3) (n : Nat) (hn : 1 ≤ n) (hlen : x.length = n) :
    calccom x none n = (meanPos x).toD
      ∧ ∀ (ms : List ℚ) (w : ℚ), w ≠ 0 → ms = List.replicate n w →
          calccom x (some ms) n = (meanPos x).toD := by
  refine ⟨calccom_uniform x none n 1 hn hlen one_ne_zero (fun i _ => rfl), ?_⟩
  intro ms w hw hms
  apply calccom_uniform x (some ms) n w hn hlen hw
  intro i hi
  subst hms
  simp [massAt, List.getD_eq_getElem?_getD, List.getElem?_replicate, hi]

/-- C9, witness: the positions `(1,2,3)` and `(3,6,9)` have the center
`(2,4,6)`, without weights and with the weights `[5, 5]`. -/
theorem calccom_mean_witness :
    calccom [⟨1, 2, 3⟩, ⟨3, 6, 9⟩] none 2 = ⟨Dbl.fin 2, Dbl.fin 4, Dbl.fin 6⟩
      ∧ calccom [⟨1, 2, 3⟩, ⟨3, 6, 9⟩] (some [5, 5]) 2 = ⟨Dbl.fin 2, Dbl.fin 4, Dbl.fin 6⟩ := by
  have key := calccom_mean [⟨1, 2, 3⟩, ⟨3, 6, 9⟩] 2 (by decide) rfl
  have hmean : (meanPos [⟨1, 2, 3⟩, ⟨3, 6, 9⟩]).toD = ⟨Dbl.fin 2, Dbl.fin 4, Dbl.fin 6⟩ := by
    simp [meanPos, mean, Vec3.toD]; norm_num
  rw [← hmean]
  exact ⟨key.1, key.2 [5, 5] 5 (by norm_num) rfl⟩

/-- C9, counterexample: with the uniform weight array `[0]` the total weight is
zero and `calccom` divides by it: the center of the single position `(1,2,3)`
has no finite value, it is not the mean `(1,2,3)`. -/
theorem calccom_uniform_zero :
    calccom [⟨1, 2, 3⟩] (some (List.replicate 1 0)) 1 = ⟨Dbl.nan, Dbl.nan, Dbl.nan⟩
      ∧ calccom [⟨1, 2, 3⟩] (some (List.replicate 1 0)) 1 ≠ (meanPos [⟨1, 2, 3⟩]).toD := by
  have h : calccom [⟨1, 2, 3⟩] (some (List.replicate 1 0)) 1
      = ⟨Dbl.nan, Dbl.nan, Dbl.nan⟩ := by
    simp [calccom, calccom_step, massAt, at3, List.range_succ]
  refine ⟨h, ?_⟩
  rw [h]
  intro e
  have := congrArg DVec3.x e
  simp [meanPos, mean, Vec3.toD] at this
  exact absurd this.symm (Dbl.fin_ne_nan _)

theorem sumOver_range_single (g wt : Nat → ℚ) (k n : Nat)
    (h : ∀ i, i < n → i ≠ k → wt i = 0) :
    sumOver (List.range n) (fun i => g i * wt i) = if k < n then g k * wt k else 0 := by
  induction n with
  | zero => simp [sumOver]
  | succ n ih =>
    have ih2 := ih (fun i hi hik => h i (by omega) hik)
    simp only [sumOver, List.range_succ, List.map_append, List.sum_append, List.map_cons,
      List.map_nil, List.sum_cons, List.sum_nil, add_zero] at ih2 ⊢
    rw [ih2]
    by_cases hkn : k < n
    · have h0 : wt n = 0 := h n (by omega) (by omega)
      simp [hkn, h0, Nat.lt_succ_of_lt hkn]
    · by_cases hke : k = n
      · subst hke; simp
      · have h0 : wt n = 0 := h n (by omega) (fun e => hke e.symm)
        have : ¬ k < n + 1 := by omega
        simp [hkn, this, h0]

/-- C10: for every `n ≥ 1` (implied by `k < n`), every array of `n` positions
and every index `k < n`, `calccom` with a weight array of `n` entries that is zero everywhere
except for a weight `w ≠ 0` at index `k` returns the position `k`. -/
theorem calccom_single (x : List Vec3) (ms : List ℚ) (n k : Nat) (w : ℚ)
    (_hlen : x.length = n) (_hms : ms.length = n) (hk : k < n) (hw : w ≠ 0)
    (hkw : ms.getD k 0 = w) (hz : ∀ i, i < n → i ≠ k → ms.getD i 0 = 0) :
    calccom x (some ms) n = (at3 x k).toD := by
  have hz2 : ∀ i, i < n → i ≠ k → massAt (some ms) i = 0 := hz
  have hkw2 : massAt (some ms) k = w := hkw
  have e := fun g => sumOver_range_single g (massAt (some ms)) k n hz2
  have htot : sumOver (List.range n) (massAt (some ms)) = w := by
    have := e (fun _ => 1)
    simp only [one_mul, hk, if_true, hkw2] at this
    exact this
  rw [calccom_formula, htot, e (fun i => (at3 x i).x), e (fun i => (at3 x i).y),
    e (fun i => (at3 x i).z)]
  simp only [hk, if_true, hkw2, Dbl.fin_div _ _ hw, Vec3.toD]
  congr 2 <;> field_simp

/-- C10, witness: three positions and the weights `[0, 7, 0]` give the second
position. -/
theorem calccom_single_witness :
    calccom [⟨1, 2, 3⟩, ⟨4, 5, 6⟩, ⟨7, 8, 9⟩] (some [0, 7, 0]) 3
      = ⟨Dbl.fin 4, Dbl.fin 5, Dbl.fin 6⟩ := by
  rw [calccom_single [⟨1, 2, 3⟩, ⟨4, 5, 6⟩, ⟨7, 8, 9⟩] [0, 7, 0] 3 1 7 rfl rfl
    (by decide) (by norm_num) rfl
    (by
      intro i hi hik
      have : i = 0 ∨ i = 2 := by omega
      rcases this with h | h <;> subst h <;> rfl)]
  rfl

/-! ## `calccom` and a total weight that is not positive -/

theorem calccom_sums_mtot (x : List Vec3) (m : Option (List ℚ)) (n : Nat) :
    (calccom_sums x m n).2.2.2 = sumOver (List.range n) (massAt m) := by
  unfold calccom_sums
  rw [calccom_fold]
  simp

/-- C11 (as amended): `calccom` has no failure and no test of the total
weight: it always divides the three weighted sums by `mtot`, the sum of the
weights of the `n` atoms. For `mtot ≠ 0`, positive or negative, the result is
the weighted sums divided by `mtot`; for `mtot = 0` the three components have
no finite value. -/
theorem calccom_no_guard (x : List Vec3) (m : Option (List ℚ)) (n : Nat) :
    (calccom_sums x m n).2.2.2 = sumOver (List.range n) (massAt m)
      ∧ calccom x m n
        = (if (calccom_sums x m n).2.2.2 = 0 then ⟨Dbl.nan, Dbl.nan, Dbl.nan⟩
            else ⟨Dbl.fin ((calccom_sums x m n).1 / (calccom_sums x m n).2.2.2),
              Dbl.fin ((calccom_sums x m n).2.1 / (calccom_sums x m n).2.2.2),
              Dbl.fin ((calccom_sums x m n).2.2.1 / (calccom_sums x m n).2.2.2)⟩) := by
  refine ⟨calccom_sums_mtot x m n, ?_⟩
  by_cases h : (calccom_sums x m n).2.2.2 = 0
  · rw [if_pos h]
    unfold calccom
    unfold calccom_sums at h
    simp only [h, Dbl.fin_div_zero]
  · rw [if_neg h]
    unfold calccom
    unfold calccom_sums at h ⊢
    simp only [Dbl.fin_div _ _ h]

/-- C11, counterexample: with the single weight `-1` the total weight is `-1`,
not positive, and `calccom` divides by it and returns the center `(1, 2, 3)`;
with the single weight `0`, and with no atom at all, the total weight is 0 and
`calccom` divides by it, leaving components without a finite value. -/
theorem calccom_divides_by_any_weight :
    (calccom_sums [⟨1, 2, 3⟩] (some [-1]) 1).2.2.2 = -1
      ∧ calccom [⟨1, 2, 3⟩] (some [-1]) 1 = ⟨Dbl.fin 1, Dbl.fin 2, Dbl.fin 3⟩
      ∧ (calccom_sums [⟨1, 2, 3⟩] (some [0]) 1).2.2.2 = 0
      ∧ calccom [⟨1, 2, 3⟩] (some [0]) 1 = ⟨Dbl.nan, Dbl.nan, Dbl.nan⟩
      ∧ calccom [] none 0 = ⟨Dbl.nan, Dbl.nan, Dbl.nan⟩ := by
  refine ⟨?_, ?_, ?_, ?_, ?_⟩
  · simp [calccom_sums, calccom_step, massAt, at3, List.range_succ]
  · simp [calccom, calccom_step, massAt, at3, List.range_succ, Dbl.fin_div]
  · simp [calccom_sums, calccom_step, massAt, at3, List.range_succ]
  · simp [calccom, calccom_step, massAt, at3, List.range_succ]
  · simp [calccom]

/-! ## The conversion of a row without any frame -/

theorem finalize_zero_count (a : Acc) (h : a.cnt = Dbl.fin 0) : finalize a = emptyStat := by
  obtain ⟨c, t, q⟩ := a
  simp only at h
  subst h
  have hd : ∀ v : Dbl, v / Dbl.fin 0 = Dbl.nan := by
    intro v
    cases v with
    | none => rfl
    | some v => exact Dbl.fin_div_zero v
  simp only [finalize, hd]
  rfl

theorem fileVals_no_frame (xf : Xf) (file : Option (List Line)) (mass : Option (List ℚ))
    (h : file = none ∨ ∃ ls, file = some ls ∧ ∀ l ∈ ls.head?, l.marker = false) :
    (fileVals xf file mass).2 = [] := by
  rcases h with h | ⟨ls, h, hl⟩
  · subst h; rfl
  · subst h
    simp only [fileVals]
    rw [framesVals_tail xf.np mass _ none xf ls hl]

/-- C12 (as amended): `mf_dolist` has no test of the count: when the first
file of the list adds no frame (it cannot be opened, it is empty or it starts
with a line that is no marker), the line printed after it is computed by
dividing by the zero count: for each of the three quantities the mean and the
deviation have no finite value and the count printed is 0. -/
theorem mf_dolist_empty_first (xf : Xf) (mass : Option (List ℚ))
    (file : Option (List Line)) (rest : List (Option (List Line)))
    (h : file = none ∨ ∃ ls, file = some ls ∧ ∀ l ∈ ls.head?, l.marker = false) :
    (mf_dolist xf (file :: rest) mass).2.2.head? = some ⟨emptyStat, emptyStat, emptyStat⟩ := by
  unfold mf_dolist
  rw [mf_dolist_loop_out]
  simp only [List.nil_append, List.length_cons, List.range_succ_eq_map, List.map_cons,
    List.head?_cons, pooledVals_zero, fileVals_no_frame xf file mass h, List.foldl_nil]
  simp only [reportOf, Sums.zero, finalize_zero_count ⟨Dbl.fin 0, Dbl.fin 0, Dbl.fin 0⟩ rfl]

/-- C12, witness: a list of files whose first file is empty. -/
theorem mf_dolist_empty_first_witness :
    (mf_dolist ⟨2, 0, [⟨0, 0, 0⟩, ⟨0, 0, 0⟩], [⟨0, 0, 0⟩, ⟨0, 0, 0⟩]⟩
      [some [], some [Line.timestep, Line.atom ⟨0, 0, 0⟩ ⟨1, 0, 0⟩,
        Line.atom ⟨1, 0, 0⟩ ⟨3, 0, 0⟩]] none).2.2.head?
      = some ⟨emptyStat, emptyStat, emptyStat⟩ :=
  mf_dolist_empty_first _ none (some []) _ (Or.inr ⟨[], rfl, by simp⟩)

/-- C12, counterexample: for a single file that cannot be opened the count is 0
and `mf_dolist` still divides by it: the only line printed has a mean without
a finite value for the radial force. -/
theorem mf_dolist_divides_by_zero_count :
    (mf_dolist ⟨2, 0, [⟨0, 0, 0⟩, ⟨0, 0, 0⟩], [⟨0, 0, 0⟩, ⟨0, 0, 0⟩]⟩ [none] none).2.1.s0.cnt
        = Dbl.fin 0
      ∧ ((mf_dolist ⟨2, 0, [⟨0, 0, 0⟩, ⟨0, 0, 0⟩], [⟨0, 0, 0⟩, ⟨0, 0, 0⟩]⟩ [none] none).2.2.map
          (fun r => r.f.ave)) = [Dbl.nan] := by
  simp [mf_dolist, mf_dolist_loop, calcmf_inplace, Sums.zero, finalize]

/-! ## A file that cannot be opened -/

theorem runXf_append (mass : Option (List ℚ)) (pre post : List (Option (List Line)))
    (xf : Xf) : runXf mass (pre ++ post) xf = runXf mass post (runXf mass pre xf) := by
  induction pre generalizing xf with
  | nil => rfl
  | cons file pre ih =>
    show runXf mass (pre ++ post) (fileVals xf file mass).1 = _
    rw [ih]; rfl

theorem runVals_append (mass : Option (List ℚ)) (pre post : List (Option (List Line)))
    (xf : Xf) :
    runVals mass (pre ++ post) xf
      = runVals mass pre xf ++ runVals mass post (runXf mass pre xf) := by
  induction pre generalizing xf with
  | nil => rfl
  | cons file pre ih =>
    show (fileVals xf file mass).2 :: runVals mass (pre ++ post) (fileVals xf file mass).1 = _
    rw [ih]; rfl

/-- C17: when a file cannot be opened, `calcmf_inplace` returns -1 and leaves
the sums and the buffer as they are, and `mf_dolist` goes on with the next
files: the buffer and the sums at the end of the run are those of the run over
the list without that file. -/
theorem mf_dolist_skips_unopenable (xf : Xf) (mass : Option (List ℚ)) (sums : Sums)
    (pre post : List (Option (List Line))) :
    calcmf_inplace xf none mass sums = (-1, xf, sums)
      ∧ (mf_dolist xf (pre ++ none :: post) mass).1 = (mf_dolist xf (pre ++ post) mass).1
      ∧ (mf_dolist xf (pre ++ none :: post) mass).2.1
          = (mf_dolist xf (pre ++ post) mass).2.1 := by
  refine ⟨rfl, ?_, ?_⟩
  · unfold mf_dolist
    rw [(mf_dolist_loop_state mass _ xf Sums.zero []).1,
      (mf_dolist_loop_state mass _ xf Sums.zero []).1, runXf_append, runXf_append]
    rfl
  · unfold mf_dolist
    rw [(mf_dolist_loop_state mass _ xf Sums.zero []).2,
      (mf_dolist_loop_state mass _ xf Sums.zero []).2, runVals_append, runVals_append]
    simp [runVals, runXf, fileVals]

/-! ## The sign of the number under the square root -/

theorem sum_sq_eq_zero (l : List ℚ) :
    (l.map (fun v => v ^ 2)).sum = 0 ↔ ∀ v ∈ l, v = 0 := by
  induction l with
  | nil => simp
  | cons a l ih =>
    have h1 : 0 ≤ a ^ 2 := sq_nonneg a
    have h2 : 0 ≤ (l.map (fun v => v ^ 2)).sum :=
      List.sum_nonneg (by intro x hx; simp only [List.mem_map] at hx
                          obtain ⟨v, _, rfl⟩ := hx; exact sq_nonneg v)
    simp only [List.map_cons, List.sum_cons, List.mem_cons, forall_eq_or_imp]
    constructor
    · intro h
      have ha : a ^ 2 = 0 := by linarith
      have hl : (l.map (fun v => v ^ 2)).sum = 0 := by linarith
      exact ⟨by simpa using ha, ih.mp hl⟩
    · rintro ⟨ha, hl⟩
      rw [ih.mpr hl, ha]; simp

theorem twoPassVar_nonneg (vs : List ℚ) : 0 ≤ twoPassVar vs := by
  unfold twoPassVar
  apply div_nonneg
  · apply List.sum_nonneg
    intro x hx
    simp only [List.mem_map] at hx
    obtain ⟨v, _, rfl⟩ := hx
    exact sq_nonneg _
  · exact Nat.cast_nonneg _

theorem twoPassVar_eq_zero (vs : List ℚ) (h : vs ≠ []) :
    twoPassVar vs = 0 ↔ ∀ a ∈ vs, ∀ b ∈ vs, a = b := by
  have hn : (vs.length : ℚ) ≠ 0 := by
    have : vs.length ≠ 0 := by simpa [List.length_eq_zero] using h
    exact_mod_cast this
  have key : twoPassVar vs = 0 ↔ ∀ v ∈ vs, v = mean vs := by
    unfold twoPassVar
    rw [div_eq_zero_iff]
    simp only [hn, or_false]
    have := sum_sq_eq_zero (vs.map (fun v => v - mean vs))
    simp only [List.map_map, List.mem_map, forall_exists_index, and_imp,
      forall_apply_eq_imp_iff₂] at this
    rw [show (vs.map (fun v => (v - mean vs) ^ 2)) = vs.map ((fun v => v ^ 2) ∘ fun v => v - mean vs)
      from rfl, this]
    constructor
    · intro hh v hv; linarith [hh v hv]
    · intro hh v hv; rw [hh v hv]; ring
  rw [key]
  constructor
  · intro hh a ha b hb
    rw [hh a ha, hh b hb]
  · intro hh v hv
    have hall : ∀ w ∈ vs, w = v := fun w hw => hh w hw v hv
    have hsum : vs.sum = vs.length * v := by
      clear key hh hv h hn
      induction vs with
      | nil => simp
      | cons a l ih =>
        have ha : a = v := hall a (by simp)
        have hl : ∀ w ∈ l, w = v := fun w hw => hall w (by simp [hw])
        simp only [List.sum_cons, List.length_cons, Nat.cast_succ, ih hl, ha]
        ring
    unfold mean
    rw [hsum]
    field_simp

/-- C20: over exact arithmetic, for every non-empty sequence of accumulated
values, the number `sumSquares / count - (sum / count)^2` whose square root
`mf_dolist` takes is non-negative, and it is 0 exactly when all the values are
equal. -/
theorem var_nonneg (vs : List ℚ) (h : vs ≠ []) :
    (finalize (feed ⟨Dbl.fin 0, Dbl.fin 0, Dbl.fin 0⟩ vs)).var = Dbl.fin (varExpr vs)
      ∧ 0 ≤ varExpr vs
      ∧ (varExpr vs = 0 ↔ ∀ a ∈ vs, ∀ b ∈ vs, a = b) := by
  have hn : (vs.length : ℚ) ≠ 0 := by
    have : vs.length ≠ 0 := by simpa [List.length_eq_zero] using h
    exact_mod_cast this
  have hv : varExpr vs = twoPassVar vs := by
    rw [twoPassVar_eq vs h]; rfl
  refine ⟨?_, ?_, ?_⟩
  · rw [feed_fin]
    simp only [zero_add, finalize, Dbl.fin_div _ _ hn, Dbl.fin_mul, Dbl.fin_sub, varExpr]
    congr 1; ring
  · rw [hv]; exact twoPassVar_nonneg vs
  · rw [hv]; exact twoPassVar_eq_zero vs h

/-- C20, witness: the values `[1, 2, 3]` give `14/3 - 2^2 = 2/3`, which is not
negative, and the values `[5, 5]` give 0. -/
theorem var_nonneg_witness :
    (0 : ℚ) ≤ varExpr [1, 2, 3] ∧ varExpr [5, 5] = 0 :=
  ⟨(var_nonneg [1, 2, 3] (by simp)).2.1,
    (var_nonneg [5, 5] (by simp)).2.2.mpr (by simp)⟩

/-! ## `calcmf` of `src/mf.h` -/

theorem calcmf_fold_rf (xf : Xf) (xc0 xc1 : DVec3) (l : List Nat)
    (st : Dbl × Dbl × Dbl × Dbl) (a c : ℚ) (h1 : st.1 = Dbl.fin a)
    (h3 : st.2.2.1 = Dbl.fin c) :
    (l.foldl (MfH.calcmf_step xf xc0 xc1) st).1
        = Dbl.fin (a + sumOver l (fun ifr => calcrf (xf.f.drop (ifr * xf.np)) xf.np))
      ∧ (l.foldl (MfH.calcmf_step xf xc0 xc1) st).2.2.1
        = Dbl.fin (c + sumOver l (fun ifr => calcrf (xf.f.drop (ifr * xf.np)) xf.np ^ 2)) := by
  induction l generalizing st a c with
  | nil => simp [sumOver, h1, h3]
  | cons i l ih =>
    rw [List.foldl_cons]
    have e1 : (MfH.calcmf_step xf xc0 xc1 st i).1
        = Dbl.fin (a + calcrf (xf.f.drop (i * xf.np)) xf.np) := by
      simp [MfH.calcmf_step, h1]
    have e3 : (MfH.calcmf_step xf xc0 xc1 st i).2.2.1
        = Dbl.fin (c + calcrf (xf.f.drop (i * xf.np)) xf.np ^ 2) := by
      simp [MfH.calcmf_step, h3, pow_two]
    have := ih _ _ _ e1 e3
    simp only [sumOver, List.map_cons, List.sum_cons] at this ⊢
    rw [this.1, this.2]
    constructor <;> congr 1 <;> ring

/-- The radial force outputs of `calcmf` of `src/mf.h` for `nfr ≥ 1` frames: the
mean in `mf[0]` does not depend on the arrays on entry, the value left in
`var[0]` contains the value `v0` that `var[0]` held on entry. -/
theorem calcmf_rf_formula (xf : Xf) (m : Option (List ℚ)) (mf : Dbl × Dbl) (v0 : ℚ)
    (var1 : Dbl) (hn : 1 ≤ xf.nfr) :
    (MfH.calcmf xf m mf (Dbl.fin v0, var1)).2.1
        = Dbl.fin (sumOver (List.range xf.nfr)
            (fun ifr => calcrf (xf.f.drop (ifr * xf.np)) xf.np) / xf.nfr)
      ∧ (MfH.calcmf xf m mf (Dbl.fin v0, var1)).2.2.2.1
        = Dbl.fin ((v0 + sumOver (List.range xf.nfr)
              (fun ifr => calcrf (xf.f.drop (ifr * xf.np)) xf.np ^ 2)) / xf.nfr
            - (sumOver (List.range xf.nfr)
              (fun ifr => calcrf (xf.f.drop (ifr * xf.np)) xf.np) / xf.nfr) ^ 2) := by
  have hq : (xf.nfr : ℚ) ≠ 0 := by
    have : xf.nfr ≠ 0 := by omega
    exact_mod_cast this
  have key := calcmf_fold_rf xf (calccom xf.x m (xf.np / 2))
    (calccom (xf.x.drop (xf.np / 2)) m (xf.np / 2)) (List.range xf.nfr)
    (Dbl.fin 0, Dbl.fin 0, Dbl.fin v0, var1) 0 v0 rfl rfl
  simp only [MfH.calcmf, key.1, key.2, zero_add, Dbl.fin_div _ _ hq, Dbl.fin_mul, Dbl.fin_sub]
  simp [pow_two]

/-- C19, the code at a failing input: two atoms and one frame with the x
forces 1 and 3, so a radial force 1. With `var = {1, 1}` on entry `calcmf`
returns `var[0] = (1 + 1) / 1 - 1 = 1`, with `var = {0, 0}` it returns the
population variance 0 of the single value; `mf[0] = 1` in both cases, whatever
`mf` held on entry. -/
theorem calcmf_var_not_reset :
    (MfH.calcmf ⟨2, 1, [⟨0, 0, 0⟩, ⟨1, 0, 0⟩], [⟨1, 0, 0⟩, ⟨3, 0, 0⟩]⟩ none
        (Dbl.fin 7, Dbl.fin 7) (Dbl.fin 1, Dbl.fin 1)).2.1 = Dbl.fin 1
      ∧ (MfH.calcmf ⟨2, 1, [⟨0, 0, 0⟩, ⟨1, 0, 0⟩], [⟨1, 0, 0⟩, ⟨3, 0, 0⟩]⟩ none
        (Dbl.fin 7, Dbl.fin 7) (Dbl.fin 1, Dbl.fin 1)).2.2.2.1 = Dbl.fin 1
      ∧ (MfH.calcmf ⟨2, 1, [⟨0, 0, 0⟩, ⟨1, 0, 0⟩], [⟨1, 0, 0⟩, ⟨3, 0, 0⟩]⟩ none
        (Dbl.fin 7, Dbl.fin 7) (Dbl.fin 0, Dbl.fin 0)).2.2.2.1 = Dbl.fin 0 := by
  refine ⟨?_, ?_, ?_⟩ <;>
    simp [MfH.calcmf, MfH.calcmf_step, calcrf, at3, List.range_succ, Dbl.fin_div]
  norm_num

/-! ## `calctorq` on a configuration mirrored through the origin -/

theorem sumOver_subB (ns : Nat) (g : Nat → ℚ) :
    sumOver (subB (2 * ns)) g = sumOver (List.range ns) (fun i => g (i + ns)) := by
  have h1 : 2 * ns / 2 = ns := by omega
  have h2 : 2 * ns - ns = ns := by omega
  unfold subB sumOver
  rw [h1, h2, List.range'_eq_map_range, List.map_map]
  congr 1
  apply List.map_congr_left
  intro i _
  simp [Nat.add_comm]

theorem sumOver_subA (ns : Nat) (g : Nat → ℚ) :
    sumOver (subA (2 * ns)) g = sumOver (List.range ns) g := by
  have h1 : 2 * ns / 2 = ns := by omega
  unfold subA
  rw [h1]

theorem sumOver_congr (l : List Nat) (g h : Nat → ℚ) (e : ∀ i ∈ l, g i = h i) :
    sumOver l g = sumOver l h := by
  unfold sumOver
  rw [List.map_congr_left e]

theorem mirror_sums (ns : Nat) (x f : List Vec3) (c0 c1 : Vec3)
    (hx : ∀ i, i < ns → (at3 x (i + ns)).x = -(at3 x i).x ∧ (at3 x (i + ns)).y = -(at3 x i).y)
    (hf : ∀ i, i < ns → (at3 f (i + ns)).x = -(at3 f i).x ∧ (at3 f (i + ns)).y = -(at3 f i).y)
    (hc : c1.x = -c0.x ∧ c1.y = -c0.y) :
    sumOver (subB (2 * ns)) (torqueTerm x f c1) = sumOver (subA (2 * ns)) (torqueTerm x f c0) := by
  rw [sumOver_subB, sumOver_subA]
  apply sumOver_congr
  intro i hi
  have hi2 : i < ns := List.mem_range.mp hi
  simp only [torqueTerm, (hx i hi2).1, (hx i hi2).2, (hf i hi2).1, (hf i hi2).2, hc.1, hc.2]
  ring

/-- C15 (as amended): for every configuration of `np = 2 ns` atoms in which
subunit B is the mirror image of subunit A through the origin in the plane
(`x[i+ns] = -x[i]`, centers `xc[1] = -xc[0]`) with opposite forces
(`f[i+ns] = -f[i]`), every `c_i` of subunit B equals the `c_i` of its mirror
atom in A: `calctorq` returns the torque 0 and leaves in `*symmtorq` half the
sum of the `c_i` over subunit A; the torque is twice the symmetric torque only
when that sum is 0. -/
theorem calctorq_mirror (ns : Nat) (x f : List Vec3) (c0 c1 : Vec3)
    (hx : ∀ i, i < ns → (at3 x (i + ns)).x = -(at3 x i).x ∧ (at3 x (i + ns)).y = -(at3 x i).y)
    (hf : ∀ i, i < ns → (at3 f (i + ns)).x = -(at3 f i).x ∧ (at3 f (i + ns)).y = -(at3 f i).y)
    (hc : c1.x = -c0.x ∧ c1.y = -c0.y) :
    (calctorq x f (2 * ns) c0.toD c1.toD).1 = Dbl.fin 0
      ∧ (calctorq x f (2 * ns) c0.toD c1.toD).2
          = Dbl.fin (sumOver (subA (2 * ns)) (torqueTerm x f c0) / 2)
      ∧ ((calctorq x f (2 * ns) c0.toD c1.toD).1
            = Dbl.fin 2 * (calctorq x f (2 * ns) c0.toD c1.toD).2
          ↔ sumOver (subA (2 * ns)) (torqueTerm x f c0) = 0) := by
  rw [calctorq_formula, mirror_sums ns x f c0 c1 hx hf hc]
  refine ⟨by simp, rfl, ?_⟩
  simp only [sub_self, Dbl.fin_mul, Dbl.fin_inj]
  constructor
  · intro h; linarith
  · intro h; rw [h]; norm_num

/-- C15, witness: four atoms at `(0,0), (2,0)` and `(0,0), (-2,0)`, centers
`(1,0)` and `(-1,0)`, forces `(0,0), (0,1)` and `(0,0), (0,-1)`: the torque is 0
and the symmetric torque is `1/2`. -/
theorem calctorq_mirror_witness :
    (calctorq [⟨0, 0, 0⟩, ⟨2, 0, 0⟩, ⟨0, 0, 0⟩, ⟨-2, 0, 0⟩]
        [⟨0, 0, 0⟩, ⟨0, 1, 0⟩, ⟨0, 0, 0⟩, ⟨0, -1, 0⟩] (2 * 2)
        (Vec3.toD ⟨1, 0, 0⟩) (Vec3.toD ⟨-1, 0, 0⟩)).1 = Dbl.fin 0 :=
  (calctorq_mirror 2 [⟨0, 0, 0⟩, ⟨2, 0, 0⟩, ⟨0, 0, 0⟩, ⟨-2, 0, 0⟩]
    [⟨0, 0, 0⟩, ⟨0, 1, 0⟩, ⟨0, 0, 0⟩, ⟨0, -1, 0⟩] ⟨1, 0, 0⟩ ⟨-1, 0, 0⟩
    (by
      intro i hi
      have : i = 0 ∨ i = 1 := by omega
      rcases this with h | h <;> subst h <;> simp [at3])
    (by
      intro i hi
      have : i = 0 ∨ i = 1 := by omega
      rcases this with h | h <;> subst h <;> simp [at3])
    (by simp)).1

/-- C15, counterexample: in the mirrored configuration of four atoms at
`(0,0), (2,0)` and `(0,0), (-2,0)`, whose centers of mass are `(1,0)` and
`(-1,0)`, with the forces `(0,0), (0,1)` and `(0,0), (0,-1)`, `calctorq` returns
the torque 0 and the symmetric torque `1/2`: the torque is not twice the
symmetric torque. -/
theorem calctorq_mirror_not_double :
    calccom [⟨0, 0, 0⟩, ⟨2, 0, 0⟩, ⟨0, 0, 0⟩, ⟨-2, 0, 0⟩] none 2 = Vec3.toD ⟨1, 0, 0⟩
      ∧ calccom (List.drop 2 [⟨0, 0, 0⟩, ⟨2, 0, 0⟩, ⟨0, 0, 0⟩, ⟨-2, 0, 0⟩]) none 2
          = Vec3.toD ⟨-1, 0, 0⟩
      ∧ calctorq [⟨0, 0, 0⟩, ⟨2, 0, 0⟩, ⟨0, 0, 0⟩, ⟨-2, 0, 0⟩]
          [⟨0, 0, 0⟩, ⟨0, 1, 0⟩, ⟨0, 0, 0⟩, ⟨0, -1, 0⟩] 4
          (Vec3.toD ⟨1, 0, 0⟩) (Vec3.toD ⟨-1, 0, 0⟩) = (Dbl.fin 0, Dbl.fin (1 / 2))
      ∧ (calctorq [⟨0, 0, 0⟩, ⟨2, 0, 0⟩, ⟨0, 0, 0⟩, ⟨-2, 0, 0⟩]
          [⟨0, 0, 0⟩, ⟨0, 1, 0⟩, ⟨0, 0, 0⟩, ⟨0, -1, 0⟩] 4
          (Vec3.toD ⟨1, 0, 0⟩) (Vec3.toD ⟨-1, 0, 0⟩)).1
        ≠ Dbl.fin 2 * (calctorq [⟨0, 0, 0⟩, ⟨2, 0, 0⟩, ⟨0, 0, 0⟩, ⟨-2, 0, 0⟩]
          [⟨0, 0, 0⟩, ⟨0, 1, 0⟩, ⟨0, 0, 0⟩, ⟨0, -1, 0⟩] 4
          (Vec3.toD ⟨1, 0, 0⟩) (Vec3.toD ⟨-1, 0, 0⟩)).2 := by
  have h3 : calctorq [⟨0, 0, 0⟩, ⟨2, 0, 0⟩, ⟨0, 0, 0⟩, ⟨-2, 0, 0⟩]
      [⟨0, 0, 0⟩, ⟨0, 1, 0⟩, ⟨0, 0, 0⟩, ⟨0, -1, 0⟩] 4
      (Vec3.toD ⟨1, 0, 0⟩) (Vec3.toD ⟨-1, 0, 0⟩) = (Dbl.fin 0, Dbl.fin (1 / 2)) := by
    simp [calctorq, calctorq_step, Vec3.toD, at3, List.range_succ, Dbl.fin_div]
    norm_num
  refine ⟨?_, ?_, h3, ?_⟩
  · simp [calccom, calccom_step, massAt, Vec3.toD, at3, List.range_succ, Dbl.fin_div]
    norm_num
  · simp [calccom, calccom_step, massAt, Vec3.toD, at3, List.range_succ, Dbl.fin_div]
    norm_num
  · rw [h3]
    simp

/-! ## The wrapped angle difference -/

theorem fmod_of_nonneg {K : Type} [LinearOrderedField K] [FloorRing K] (a b : K)
    (ha : 0 ≤ a) (hb : 0 < b) :
    fmod a b = a - (⌊a / b⌋ : K) * b ∧ 0 ≤ fmod a b ∧ fmod a b < b := by
  have hq : 0 ≤ a / b := div_nonneg ha hb.le
  have e : fmod a b = a - (⌊a / b⌋ : K) * b := by
    simp only [fmod, ctrunc, if_pos hq]
  have h1 : (⌊a / b⌋ : K) ≤ a / b := Int.floor_le _
  have h2 : a / b < (⌊a / b⌋ : K) + 1 := Int.lt_floor_add_one _
  rw [le_div_iff₀ hb] at h1
  rw [div_lt_iff₀ hb] at h2
  refine ⟨e, ?_, ?_⟩
  · rw [e]; linarith
  · rw [e]; linarith

theorem wrapAngle_bounds {K : Type} [LinearOrderedField K] [FloorRing K] (pi : K)
    (hpi : 0 < pi) (diff ref : K) (h : 0 ≤ diff - ref + 5 * pi) :
    -pi ≤ wrapAngle pi diff ref ∧ wrapAngle pi diff ref < pi := by
  have := fmod_of_nonneg (diff - ref + 5 * pi) (2 * pi) h (by linarith)
  unfold wrapAngle
  constructor <;> linarith [this.2.1, this.2.2]

theorem wrapAngle_shift {K : Type} [LinearOrderedField K] [FloorRing K] (pi diff ref : K) :
    wrapAngle pi diff ref + ref
      = diff + 2 * pi * ((2 - ctrunc ((diff - ref + 5 * pi) / (2 * pi)) : ℤ) : K) := by
  unfold wrapAngle fmod
  push_cast
  ring

/-- C13 (as amended): for every raw difference `diff` and reference angle `ref`
with `diff - ref + 5π ≥ 0`, in particular for every `diff` in `[-2π, 2π]` and
`ref` in `[-π, π]`, the wrapped value `fmod(diff - ref + 5π, 2π) - π` of
`aveang` lies in the half-open interval `[-π, π)`. -/
theorem wrapAngle_range {K : Type} [LinearOrderedField K] [FloorRing K] (pi : K)
    (hpi : 0 < pi) (diff ref : K) :
    (0 ≤ diff - ref + 5 * pi → -pi ≤ wrapAngle pi diff ref ∧ wrapAngle pi diff ref < pi)
      ∧ (-(2 * pi) ≤ diff → diff ≤ 2 * pi → -pi ≤ ref → ref ≤ pi →
          -pi ≤ wrapAngle pi diff ref ∧ wrapAngle pi diff ref < pi) := by
  refine ⟨wrapAngle_bounds pi hpi diff ref, ?_⟩
  intro h1 _ _ h4
  exact wrapAngle_bounds pi hpi diff ref (by linarith)

/-- C13, witness: over the reals with the number π, the difference 1 and the
reference 0. -/
theorem wrapAngle_range_witness :
    -Real.pi ≤ wrapAngle Real.pi 1 0 ∧ wrapAngle Real.pi 1 0 < Real.pi :=
  (wrapAngle_range Real.pi Real.pi_pos 1 0).1 (by linarith [Real.pi_pos])

/-- C13, counterexample: over the reals, for the difference `-π` and the
reference 0 the argument of `fmod` is `4π`, `fmod` gives 0 and the wrapped value
is `-π`, which is not in `(-π, π]`. -/
theorem wrapAngle_lower_end :
    wrapAngle Real.pi (-Real.pi) 0 = -Real.pi
      ∧ ¬ (-Real.pi < wrapAngle Real.pi (-Real.pi) 0
          ∧ wrapAngle Real.pi (-Real.pi) 0 ≤ Real.pi) := by
  have hpi := Real.pi_pos
  have hq : (-Real.pi - 0 + 5 * Real.pi) / (2 * Real.pi) = ((2 : ℤ) : ℝ) := by
    field_simp; ring
  have e : wrapAngle Real.pi (-Real.pi) 0 = -Real.pi := by
    have h := (fmod_of_nonneg (-Real.pi - 0 + 5 * Real.pi) (2 * Real.pi)
      (by linarith) (by linarith)).1
    unfold wrapAngle
    rw [h, hq, Int.floor_intCast]
    push_cast; ring
  refine ⟨e, ?_⟩
  rw [e]
  intro h
  exact lt_irrefl _ h.1

/-- C14: for every raw difference `diff` and reference angle `ref` with
`diff - ref + 5π ≥ 0`, the wrapped value `w` of `aveang` is such that `w + ref`
differs from `diff` by an integer multiple of `2π`, and no value `diff + 2πk`
with `k` an integer is strictly closer to `ref` than `w + ref`. -/
theorem wrapAngle_nearest {K : Type} [LinearOrderedField K] [FloorRing K] (pi : K)
    (hpi : 0 < pi) (diff ref : K) (h : 0 ≤ diff - ref + 5 * pi) :
    (∃ n : ℤ, wrapAngle pi diff ref + ref = diff + 2 * pi * (n : K))
      ∧ ∀ k : ℤ, |wrapAngle pi diff ref + ref - ref| ≤ |diff + 2 * pi * (k : K) - ref| := by
  have hb := wrapAngle_bounds pi hpi diff ref h
  have hs := wrapAngle_shift pi diff ref
  refine ⟨⟨_, hs⟩, ?_⟩
  intro k
  have hw : |wrapAngle pi diff ref| ≤ pi := abs_le.mpr ⟨hb.1, hb.2.le⟩
  have e : diff + 2 * pi * (k : K) - ref
      = wrapAngle pi diff ref
        + 2 * pi * ((k - (2 - ctrunc ((diff - ref + 5 * pi) / (2 * pi))) : ℤ) : K) := by
    have : diff = wrapAngle pi diff ref + ref
        - 2 * pi * ((2 - ctrunc ((diff - ref + 5 * pi) / (2 * pi)) : ℤ) : K) := by
      rw [hs]; ring
    push_cast at this ⊢
    linarith
  rw [add_sub_cancel_right, e]
  generalize (k - (2 - ctrunc ((diff - ref + 5 * pi) / (2 * pi))) : ℤ) = m
  rcases lt_trichotomy m 0 with hm | hm | hm
  · have hm1 : (m : K) ≤ -1 := by exact_mod_cast Int.le_sub_one_of_lt hm
    have : wrapAngle pi diff ref + 2 * pi * (m : K) ≤ -pi := by nlinarith
    calc |wrapAngle pi diff ref| ≤ pi := hw
      _ ≤ -(wrapAngle pi diff ref + 2 * pi * (m : K)) := by linarith
      _ ≤ |wrapAngle pi diff ref + 2 * pi * (m : K)| := neg_le_abs _
  · subst hm; simp
  · have hm1 : (1 : K) ≤ (m : K) := by exact_mod_cast Int.add_one_le_of_lt hm
    have : pi ≤ wrapAngle pi diff ref + 2 * pi * (m : K) := by nlinarith
    calc |wrapAngle pi diff ref| ≤ pi := hw
      _ ≤ wrapAngle pi diff ref + 2 * pi * (m : K) := this
      _ ≤ |wrapAngle pi diff ref + 2 * pi * (m : K)| := le_abs_self _

/-- C14, witness: over the reals with the number π, the difference 1 and the
reference 0, compared with the value `1 - 2π`. -/
theorem wrapAngle_nearest_witness :
    |wrapAngle Real.pi 1 0 + 0 - 0| ≤ |1 + 2 * Real.pi * (((-1 : ℤ)) : ℝ) - 0| :=
  (wrapAngle_nearest Real.pi Real.pi_pos 1 0 (by linarith [Real.pi_pos])).2 (-1)

/-! ## `aveang` as a weighted mean -/

theorem aveang_fold {K : Type} [LinearOrderedField K] [FloorRing K] (pi : K)
    (atan2 : K → K → K) (x y : List (Vec3K K)) (mass : Option (List K)) (xc yc : Vec3K K)
    (angref : K) (l : List Nat) (st : K × K) :
    l.foldl (aveang_step pi atan2 x y mass xc yc angref) st
      = (st.1 + sumK l (fun i => aveang_wt x y mass xc yc i
            * wrapAngle pi (aveang_dang atan2 x y xc yc i) angref),
          st.2 + sumK l (aveang_wt x y mass xc yc)) := by
  induction l generalizing st with
  | nil => simp [sumK]
  | cons i l ih =>
    rw [List.foldl_cons, ih]
    simp only [aveang_step, sumK, List.map_cons, List.sum_cons, add_assoc]

theorem aveang_eq {K : Type} [LinearOrderedField K] [FloorRing K] (pi : K)
    (atan2 : K → K → K) (x y : List (Vec3K K)) (mass : Option (List K)) (ns : Nat)
    (xc yc : Vec3K K) (angref : K) :
    aveang pi atan2 x y mass ns xc yc angref
      = if sumK (List.range ns) (aveang_wt x y mass xc yc) = 0 then none
        else some (angref
          + sumK (List.range ns) (fun i => aveang_wt x y mass xc yc i
              * wrapAngle pi (aveang_dang atan2 x y xc yc i) angref)
            / sumK (List.range ns) (aveang_wt x y mass xc yc)) := by
  unfold aveang
  simp only [aveang_fold, zero_add]

theorem sumK_weighted_const {K : Type} [LinearOrderedField K] (l : List Nat)
    (wt w : Nat → K) (c : K) (h : ∀ i ∈ l, wt i = 0 ∨ w i = c) :
    sumK l (fun i => wt i * w i) = c * sumK l wt := by
  induction l with
  | nil => simp [sumK]
  | cons i l ih =>
    have hl : ∀ j ∈ l, wt j = 0 ∨ w j = c := fun j hj => h j (by simp [hj])
    simp only [sumK, List.map_cons, List.sum_cons] at ih ⊢
    rw [ih hl]
    rcases h i (by simp) with e | e
    · rw [e]; ring
    · rw [e]; ring

theorem aveang_uniform {K : Type} [LinearOrderedField K] [FloorRing K] (pi : K)
    (atan2 : K → K → K) (x y : List (Vec3K K)) (mass : Option (List K)) (ns : Nat)
    (xc yc : Vec3K K) (angref w : K)
    (hd : ∀ i, i < ns → aveang_wt x y mass xc yc i = 0
      ∨ wrapAngle pi (aveang_dang atan2 x y xc yc i) angref = w)
    (hw : sumK (List.range ns) (aveang_wt x y mass xc yc) ≠ 0) :
    aveang pi atan2 x y mass ns xc yc angref = some (angref + w) := by
  rw [aveang_eq, if_neg hw,
    sumK_weighted_const (List.range ns) (aveang_wt x y mass xc yc)
      (fun i => wrapAngle pi (aveang_dang atan2 x y xc yc i) angref) w
      (fun i hi => hd i (List.mem_range.mp hi))]
  congr 2
  field_simp

theorem wrapAngle_opposite {K : Type} [LinearOrderedField K] [FloorRing K] (pi : K)
    (hpi : 0.02 < pi) : wrapAngle pi (-pi + 0.01) (pi - 0.01) = 0.02 := by
  have hpos : (0 : K) < pi := lt_trans (by norm_num) hpi
  have ha : (0 : K) ≤ -pi + 0.01 - (pi - 0.01) + 5 * pi := by
    have : (0 : K) ≤ 0.02 := by norm_num
    linarith
  have h := (fmod_of_nonneg (-pi + 0.01 - (pi - 0.01) + 5 * pi) (2 * pi) ha (by linarith)).1
  have hfl : ⌊(-pi + 0.01 - (pi - 0.01) + 5 * pi) / (2 * pi)⌋ = 1 := by
    rw [Int.floor_eq_iff]
    have h2 : (0 : K) < 2 * pi := by linarith
    constructor
    · rw [le_div_iff₀ h2]; push_cast; norm_num at hpi ⊢; linarith
    · rw [div_lt_iff₀ h2]; push_cast; norm_num at hpi ⊢; linarith
  unfold wrapAngle
  rw [h, hfl]
  push_cast
  norm_num
  ring

/-! ## The wrap law of `aveang` -/

theorem arg_unit (t : ℝ) (h : t ∈ Set.Ioc (-Real.pi) Real.pi) :
    Complex.arg ⟨Real.cos t, Real.sin t⟩ = t := by
  have e : (⟨Real.cos t, Real.sin t⟩ : ℂ) = Complex.cos t + Complex.sin t * Complex.I := by
    apply Complex.ext
    · simp [← Complex.ofReal_cos, ← Complex.ofReal_sin]
    · simp [← Complex.ofReal_cos, ← Complex.ofReal_sin]
  rw [e]
  exact Complex.arg_cos_add_sin_mul_I h

theorem arg_pos_axis (a : ℝ) (h : 0 ≤ a) : Complex.arg ⟨a, 0⟩ = 0 := by
  have e : (⟨a, 0⟩ : ℂ) = (a : ℂ) := by
    apply Complex.ext <;> simp
  rw [e]
  exact Complex.arg_ofReal_of_nonneg h

theorem unit_pair_input :
    aveang_wt [(⟨1, 0, 0⟩ : Vec3K ℝ)]
        [⟨Real.cos (-Real.pi + 0.01), Real.sin (-Real.pi + 0.01), 0⟩] none ⟨0, 0, 0⟩ ⟨0, 0, 0⟩ 0
      = 2
    ∧ aveang_dang (fun b a : ℝ => Complex.arg ⟨a, b⟩) [(⟨1, 0, 0⟩ : Vec3K ℝ)]
        [⟨Real.cos (-Real.pi + 0.01), Real.sin (-Real.pi + 0.01), 0⟩] ⟨0, 0, 0⟩ ⟨0, 0, 0⟩ 0
      = -Real.pi + 0.01 := by
  constructor
  · simp only [aveang_wt, atK, List.getD_cons_zero, sub_zero]
    have := Real.cos_sq_add_sin_sq (-Real.pi + 0.01)
    nlinarith
  · simp only [aveang_dang, atK, List.getD_cons_zero, sub_zero]
    rw [arg_unit _ ⟨by norm_num, by linarith [Real.pi_gt_three]⟩,
      arg_pos_axis 1 (by norm_num)]
    ring

theorem unit_pair_total :
    sumK (List.range 1) (aveang_wt [(⟨1, 0, 0⟩ : Vec3K ℝ)]
        [⟨Real.cos (-Real.pi + 0.01), Real.sin (-Real.pi + 0.01), 0⟩] none ⟨0, 0, 0⟩ ⟨0, 0, 0⟩)
      ≠ 0 := by
  have e : List.range 1 = [0] := rfl
  simp only [sumK, e, List.map_cons, List.map_nil, List.sum_cons, List.sum_nil, add_zero,
    unit_pair_input.1]
  norm_num

/-- C16 (as amended): for the reference angle `π - 0.01` and atoms whose raw
difference `angy - angx` is `-π + 0.01` for every index with a weight that is
not zero, the total weight being not zero, `aveang` returns `π + 0.01`: the
value equivalent to `-π + 0.01` modulo `2π` that is nearest to the reference,
`0.02` above it. -/
theorem aveang_wrap_law {K : Type} [LinearOrderedField K] [FloorRing K] (pi : K)
    (hpi : 0.02 < pi) (atan2 : K → K → K) (x y : List (Vec3K K)) (mass : Option (List K))
    (ns : Nat) (xc yc : Vec3K K)
    (hd : ∀ i, i < ns → aveang_wt x y mass xc yc i = 0
      ∨ aveang_dang atan2 x y xc yc i = -pi + 0.01)
    (hw : sumK (List.range ns) (aveang_wt x y mass xc yc) ≠ 0) :
    aveang pi atan2 x y mass ns xc yc (pi - 0.01) = some (pi + 0.01) := by
  have h := aveang_uniform pi atan2 x y mass ns xc yc (pi - 0.01) 0.02
    (by
      intro i hi
      rcases hd i hi with e | e
      · exact Or.inl e
      · right; rw [e]; exact wrapAngle_opposite pi hpi)
    hw
  rw [h]
  congr 1
  norm_num
  ring

/-- C16, witness: over the reals with the number π and the function `atan2`,
one atom at `(1, 0)` in the first set and one at angle `-π + 0.01` on the unit
circle in the second, both centers at the origin, no masses. -/
theorem aveang_wrap_law_witness :
    aveang Real.pi (fun b a : ℝ => Complex.arg ⟨a, b⟩) [(⟨1, 0, 0⟩ : Vec3K ℝ)]
        [⟨Real.cos (-Real.pi + 0.01), Real.sin (-Real.pi + 0.01), 0⟩] none 1
        ⟨0, 0, 0⟩ ⟨0, 0, 0⟩ (Real.pi - 0.01)
      = some (Real.pi + 0.01) :=
  aveang_wrap_law Real.pi (by linarith [Real.pi_gt_three]) _ _ _ none 1 _ _
    (by
      intro i hi
      have : i = 0 := by omega
      subst this
      exact Or.inr unit_pair_input.2)
    unit_pair_total

/-- C16, counterexample: over the reals, for one atom at `(1, 0)` and one at
angle `-π + 0.01` on the unit circle, centers at the origin, and the reference
`π - 0.01`, `aveang` returns `π + 0.01`, which is `0.02` away from `π - 0.01`. -/
theorem aveang_wrap_law_value :
    aveang Real.pi (fun b a : ℝ => Complex.arg ⟨a, b⟩) [(⟨1, 0, 0⟩ : Vec3K ℝ)]
        [⟨Real.cos (-Real.pi + 0.01), Real.sin (-Real.pi + 0.01), 0⟩] none 1
        ⟨0, 0, 0⟩ ⟨0, 0, 0⟩ (Real.pi - 0.01)
      = some (Real.pi + 0.01)
    ∧ aveang Real.pi (fun b a : ℝ => Complex.arg ⟨a, b⟩) [(⟨1, 0, 0⟩ : Vec3K ℝ)]
        [⟨Real.cos (-Real.pi + 0.01), Real.sin (-Real.pi + 0.01), 0⟩] none 1
        ⟨0, 0, 0⟩ ⟨0, 0, 0⟩ (Real.pi - 0.01)
      ≠ some (Real.pi - 0.01)
    ∧ (Real.pi + 0.01) - (Real.pi - 0.01) = 0.02 := by
  have h : aveang Real.pi (fun b a : ℝ => Complex.arg ⟨a, b⟩) [(⟨1, 0, 0⟩ : Vec3K ℝ)]
      [⟨Real.cos (-Real.pi + 0.01), Real.sin (-Real.pi + 0.01), 0⟩] none 1
      ⟨0, 0, 0⟩ ⟨0, 0, 0⟩ (Real.pi - 0.01) = some (Real.pi - 0.01 + 0.02) :=
    aveang_uniform Real.pi _ _ _ none 1 _ _ (Real.pi - 0.01) 0.02
      (by
        intro i hi
        have : i = 0 := by omega
        subst this
        right
        rw [unit_pair_input.2]
        exact wrapAngle_opposite Real.pi (by linarith [Real.pi_gt_three]))
      unit_pair_total
  have e : Real.pi - 0.01 + 0.02 = Real.pi + 0.01 := by norm_num; ring
  rw [e] at h
  refine ⟨h, ?_, by norm_num⟩
  rw [h]
  intro hh
  have := Option.some.inj hh
  norm_num at this
  linarith

/-! ## The range of `aveang` and the angle reported by `rottrans` -/

theorem weighted_sum_bounds {K : Type} [LinearOrderedField K] (pi : K) (l : List Nat)
    (wt w : Nat → K) (h : ∀ i ∈ l, 0 ≤ wt i ∧ -pi ≤ w i ∧ w i < pi) :
    0 ≤ sumK l wt
      ∧ -pi * sumK l wt ≤ sumK l (fun i => wt i * w i)
      ∧ sumK l (fun i => wt i * w i) ≤ pi * sumK l wt
      ∧ (0 < sumK l wt → sumK l (fun i => wt i * w i) < pi * sumK l wt) := by
  induction l with
  | nil => simp [sumK]
  | cons i l ih =>
    have hl : ∀ j ∈ l, 0 ≤ wt j ∧ -pi ≤ w j ∧ w j < pi := fun j hj => h j (by simp [hj])
    obtain ⟨h0, h1, h2, h3⟩ := ih hl
    obtain ⟨a0, a1, a2⟩ := h i (by simp)
    simp only [sumK, List.map_cons, List.sum_cons] at h0 h1 h2 h3 ⊢
    have e1 : 0 ≤ wt i * (w i + pi) := mul_nonneg a0 (by linarith)
    have e2 : 0 ≤ wt i * (pi - w i) := mul_nonneg a0 (by linarith)
    refine ⟨by linarith, by nlinarith, by nlinarith, ?_⟩
    intro hpos
    rcases a0.lt_or_eq with hlt | heq
    · have e3 : 0 < wt i * (pi - w i) := mul_pos hlt (by linarith)
      nlinarith
    · rw [← heq] at hpos ⊢
      have := h3 (by linarith)
      linarith

theorem aveang_range {K : Type} [LinearOrderedField K] [FloorRing K] (pi : K) (hpi : 0 < pi)
    (atan2 : K → K → K) (x y : List (Vec3K K)) (mass : Option (List K)) (ns : Nat)
    (xc yc : Vec3K K) (angref d : K)
    (hwt : ∀ i, i < ns → 0 ≤ aveang_wt x y mass xc yc i)
    (hpre : ∀ i, i < ns → 0 ≤ aveang_dang atan2 x y xc yc i - angref + 5 * pi)
    (hd : aveang pi atan2 x y mass ns xc yc angref = some d) :
    angref - pi ≤ d ∧ d < angref + pi := by
  rw [aveang_eq] at hd
  split at hd
  · exact absurd hd (by simp)
  · rename_i hw
    have hb := weighted_sum_bounds pi (List.range ns) (aveang_wt x y mass xc yc)
      (fun i => wrapAngle pi (aveang_dang atan2 x y xc yc i) angref)
      (fun i hi => ⟨hwt i (List.mem_range.mp hi),
        wrapAngle_bounds pi hpi _ _ (hpre i (List.mem_range.mp hi))⟩)
    have hpos : 0 < sumK (List.range ns) (aveang_wt x y mass xc yc) :=
      lt_of_le_of_ne hb.1 (Ne.symm hw)
    have hd2 := Option.some.inj hd
    rw [← hd2]
    constructor
    · have : -pi ≤ sumK (List.range ns) (fun i => aveang_wt x y mass xc yc i
          * wrapAngle pi (aveang_dang atan2 x y xc yc i) angref)
          / sumK (List.range ns) (aveang_wt x y mass xc yc) := by
        rw [le_div_iff₀ hpos]; exact hb.2.1
      linarith
    · have : sumK (List.range ns) (fun i => aveang_wt x y mass xc yc i
          * wrapAngle pi (aveang_dang atan2 x y xc yc i) angref)
          / sumK (List.range ns) (aveang_wt x y mass xc yc) < pi := by
        rw [div_lt_iff₀ hpos]; exact hb.2.2.2 hpos
      linarith

theorem aveang_wt_nonneg {K : Type} [LinearOrderedField K] (x y : List (Vec3K K))
    (mass : Option (List ℚ)) (xc yc : Vec3K K) (i : Nat)
    (hm : ∀ ms, mass = some ms → ∀ q ∈ ms, 0 ≤ q) :
    0 ≤ aveang_wt x y (mass.map (List.map (fun q : ℚ => (q : K)))) xc yc i := by
  have hsq : 0 ≤ ((atK x i).x - xc.x) * ((atK x i).x - xc.x)
      + ((atK x i).y - xc.y) * ((atK x i).y - xc.y)
      + ((atK y i).x - yc.x) * ((atK y i).x - yc.x)
      + ((atK y i).y - yc.y) * ((atK y i).y - yc.y) := by
    nlinarith [mul_self_nonneg ((atK x i).x - xc.x), mul_self_nonneg ((atK x i).y - xc.y),
      mul_self_nonneg ((atK y i).x - yc.x), mul_self_nonneg ((atK y i).y - yc.y)]
  cases mass with
  | none => simpa [aveang_wt] using hsq
  | some ms =>
    have hq : 0 ≤ ms.getD i 0 := by
      rw [List.getD_eq_getElem?_getD]
      cases hg : ms[i]? with
      | none => simp
      | some q =>
        have : q ∈ ms := List.getElem?_mem hg
        simpa using hm ms rfl q this
    have hc : (ms.map (fun q : ℚ => (q : K))).getD i 0 = ((ms.getD i 0 : ℚ) : K) := by
      rw [show (0 : K) = ((0 : ℚ) : K) by simp, List.getD_map]
    simp only [aveang_wt, Option.map_some', hc]
    exact mul_nonneg hsq (by exact_mod_cast hq)

theorem positiveAngle_bounds {K : Type} [LinearOrderedField K] (pi : K) (hpi : 0 < pi)
    (d : K) (h1 : -(2 * pi) ≤ d) (h2 : d < 2 * pi) :
    -0.08 ≤ positiveAngle pi d ∧ positiveAngle pi d < 2 * pi + pi := by
  have h8 : (0 : K) < 0.08 := by norm_num
  unfold positiveAngle
  split
  · constructor <;> linarith
  · constructor <;> linarith

/-- C18 (as amended): the angle `rottrans` stores in `*ang` is the angle `d`
returned by `aveang` when `d ≥ -0.08` and `d + 2π` when `d < -0.08`.
Consequently, for an `atan2` with values in `[-π, π]` and masses that are not
negative (or no masses), whenever that angle has a finite value (the total
weight of `aveang` is then positive) it is not below `-0.08` and it is below
`2π + π`. -/
theorem rottrans_angle {K : Type} [LinearOrderedField K] [FloorRing K] (pi : K) (hpi : 0 < pi)
    (atan2 : K → K → K) (hat : ∀ a b, -pi ≤ atan2 a b ∧ atan2 a b ≤ pi)
    (x : List Vec3) (mass : Option (List ℚ)) (ns : Nat) (r00 r01 r10 r11 : K)
    (hm : ∀ ms, mass = some ms → ∀ q ∈ ms, 0 ≤ q) :
    (∀ c0 c1 : Vec3K K, (calccom x mass ns).toK = some c0 →
        (calccom (x.drop ns) mass ns).toK = some c1 →
        rottrans pi atan2 x mass ns r00 r01 r10 r11
          = (aveang pi atan2 (x.map Vec3.toK) ((x.drop ns).map Vec3.toK)
              (mass.map (List.map (fun q : ℚ => (q : K)))) ns c0 c1
              (atan2 (r10 - r01) (r00 + r11))).map
            (fun d => if d < -0.08 then d + 2 * pi else d))
      ∧ ∀ r, rottrans pi atan2 x mass ns r00 r01 r10 r11 = some r →
          -0.08 ≤ r ∧ r < 2 * pi + pi := by
  constructor
  · intro c0 c1 h0 h1
    simp only [rottrans, h0, h1]
    rfl
  · intro r hr
    simp only [rottrans] at hr
    split at hr
    · rename_i c0 c1 h0 h1
      cases hd : aveang pi atan2 (x.map Vec3.toK) ((x.drop ns).map Vec3.toK)
          (mass.map (List.map (fun q : ℚ => (q : K)))) ns c0 c1
          (atan2 (r10 - r01) (r00 + r11)) with
      | none => rw [hd] at hr; exact absurd hr (by simp)
      | some d =>
        rw [hd] at hr
        have hr2 : positiveAngle pi d = r := Option.some.inj hr
        have hrange := aveang_range pi hpi atan2 _ _ _ ns c0 c1 _ d
          (fun i _ => aveang_wt_nonneg _ _ mass c0 c1 i hm)
          (fun i _ => by
            have ha := hat (r10 - r01) (r00 + r11)
            simp only [aveang_dang]
            have hy := hat ((atK ((x.drop ns).map Vec3.toK) i).y - c1.y)
              ((atK ((x.drop ns).map Vec3.toK) i).x - c1.x)
            have hx := hat ((atK (x.map Vec3.toK) i).y - c0.y)
              ((atK (x.map Vec3.toK) i).x - c0.x)
            linarith [ha.1, ha.2, hy.1, hy.2, hx.1, hx.2])
          hd
        have ha := hat (r10 - r01) (r00 + r11)
        rw [← hr2]
        exact positiveAngle_bounds pi hpi d (by linarith [hrange.1, ha.1])
          (by linarith [hrange.2, ha.2])
    · exact absurd hr (by simp)

/-! ## `rottrans` on concrete inputs over the reals -/

theorem wrapAngle_id {K : Type} [LinearOrderedField K] [FloorRing K] (pi : K) (hpi : 0 < pi)
    (d ref : K) (h1 : -pi ≤ d - ref) (h2 : d - ref < pi) : wrapAngle pi d ref = d - ref := by
  have h := (fmod_of_nonneg (d - ref + 5 * pi) (2 * pi) (by linarith) (by linarith)).1
  have hfl : ⌊(d - ref + 5 * pi) / (2 * pi)⌋ = 2 := by
    rw [Int.floor_eq_iff]
    have h2p : (0 : K) < 2 * pi := by linarith
    constructor
    · rw [le_div_iff₀ h2p]; push_cast; linarith
    · rw [div_lt_iff₀ h2p]; push_cast; linarith
  unfold wrapAngle
  rw [h, hfl]
  push_cast
  ring

theorem arg_neg_axis (a : ℝ) (h : a < 0) : Complex.arg ⟨a, 0⟩ = Real.pi := by
  have e : (⟨a, 0⟩ : ℂ) = (a : ℂ) := by
    apply Complex.ext <;> simp
  rw [e]
  exact Complex.arg_ofReal_of_neg h

theorem arg_pos_im (a : ℝ) (h : 0 < a) : Complex.arg ⟨0, a⟩ = Real.pi / 2 :=
  Complex.arg_eq_pi_div_two_iff.mpr ⟨rfl, h⟩

theorem arg_neg_im (a : ℝ) (h : a < 0) : Complex.arg ⟨0, a⟩ = -(Real.pi / 2) :=
  Complex.arg_eq_neg_pi_div_two_iff.mpr ⟨rfl, h⟩

theorem arg_range (b a : ℝ) :
    -Real.pi ≤ Complex.arg ⟨a, b⟩ ∧ Complex.arg ⟨a, b⟩ ≤ Real.pi :=
  ⟨(Complex.arg_mem_Ioc _).1.le, (Complex.arg_mem_Ioc _).2⟩

theorem rottrans_quarter_turn :
    rottrans Real.pi (fun b a : ℝ => Complex.arg ⟨a, b⟩)
        [⟨1, 0, 0⟩, ⟨-1, 0, 0⟩, ⟨0, -1, 0⟩, ⟨0, 1, 0⟩] none 2 0 1 (-1) 0
      = some (3 * Real.pi / 2) := by
  have hpi := Real.pi_gt_three
  have c0 : calccom [⟨1, 0, 0⟩, ⟨-1, 0, 0⟩, ⟨0, -1, 0⟩, ⟨0, 1, 0⟩] none 2
      = ⟨Dbl.fin 0, Dbl.fin 0, Dbl.fin 0⟩ := by
    simp [calccom, calccom_step, massAt, at3, List.range_succ, Dbl.fin_div]
  have c1 : calccom (List.drop 2 [⟨1, 0, 0⟩, ⟨-1, 0, 0⟩, ⟨0, -1, 0⟩, ⟨0, 1, 0⟩]) none 2
      = ⟨Dbl.fin 0, Dbl.fin 0, Dbl.fin 0⟩ := by
    simp [calccom, calccom_step, massAt, at3, List.range_succ, Dbl.fin_div]
  have t0 : (DVec3.toK ⟨Dbl.fin 0, Dbl.fin 0, Dbl.fin 0⟩ : Option (Vec3K ℝ))
      = some ⟨0, 0, 0⟩ := by
    simp [DVec3.toK, Dbl.fin]
  have href : Complex.arg ⟨(0 : ℝ) + 0, -1 - 1⟩ = -(Real.pi / 2) := by
    have : ((0 : ℝ) + 0) = 0 := by norm_num
    rw [this]; exact arg_neg_im _ (by norm_num)
  have hav : aveang Real.pi (fun b a : ℝ => Complex.arg ⟨a, b⟩)
      (List.map Vec3.toK [⟨1, 0, 0⟩, ⟨-1, 0, 0⟩, ⟨0, -1, 0⟩, ⟨0, 1, 0⟩])
      (List.map Vec3.toK (List.drop 2 [⟨1, 0, 0⟩, ⟨-1, 0, 0⟩, ⟨0, -1, 0⟩, ⟨0, 1, 0⟩]))
      none 2 ⟨0, 0, 0⟩ ⟨0, 0, 0⟩ (-(Real.pi / 2)) = some (-(Real.pi / 2) + 0) := by
    apply aveang_uniform
    · intro i hi
      right
      have : i = 0 ∨ i = 1 := by omega
      rcases this with h | h <;> subst h
      · have : aveang_dang (fun b a : ℝ => Complex.arg ⟨a, b⟩)
            (List.map Vec3.toK [⟨1, 0, 0⟩, ⟨-1, 0, 0⟩, ⟨0, -1, 0⟩, ⟨0, 1, 0⟩])
            (List.map Vec3.toK (List.drop 2 [⟨1, 0, 0⟩, ⟨-1, 0, 0⟩, ⟨0, -1, 0⟩, ⟨0, 1, 0⟩]))
            ⟨0, 0, 0⟩ ⟨0, 0, 0⟩ 0 = -(Real.pi / 2) := by
          simp [aveang_dang, atK, Vec3.toK, arg_pos_axis, arg_neg_im]
        rw [this, wrapAngle_id Real.pi (by linarith) _ _ (by linarith) (by linarith)]
        ring
      · have : aveang_dang (fun b a : ℝ => Complex.arg ⟨a, b⟩)
            (List.map Vec3.toK [⟨1, 0, 0⟩, ⟨-1, 0, 0⟩, ⟨0, -1, 0⟩, ⟨0, 1, 0⟩])
            (List.map Vec3.toK (List.drop 2 [⟨1, 0, 0⟩, ⟨-1, 0, 0⟩, ⟨0, -1, 0⟩, ⟨0, 1, 0⟩]))
            ⟨0, 0, 0⟩ ⟨0, 0, 0⟩ 1 = -(Real.pi / 2) := by
          simp [aveang_dang, atK, Vec3.toK, arg_neg_axis, arg_pos_im]
          ring
        rw [this, wrapAngle_id Real.pi (by linarith) _ _ (by linarith) (by linarith)]
        ring
    · simp [sumK, aveang_wt, atK, Vec3.toK, List.range_succ]
  simp only [rottrans, c0, c1, t0, Option.map_none']
  rw [href, hav]
  simp only [Option.map_some', positiveAngle]
  rw [if_pos (by norm_num; linarith)]
  congr 1
  ring

/-- C18, witness: over the reals with the number π and the function `atan2`,
two atoms at `(1,0), (-1,0)` and their images `(0,-1), (0,1)` under the quarter
turn whose matrix is passed: `aveang` returns `-π/2` and the angle stored is
`3π/2`. -/
theorem rottrans_angle_witness :
    rottrans Real.pi (fun b a : ℝ => Complex.arg ⟨a, b⟩)
        [⟨1, 0, 0⟩, ⟨-1, 0, 0⟩, ⟨0, -1, 0⟩, ⟨0, 1, 0⟩] none 2 0 1 (-1) 0
      = some (3 * Real.pi / 2)
    ∧ -0.08 ≤ 3 * Real.pi / 2 ∧ 3 * Real.pi / 2 < 2 * Real.pi + Real.pi :=
  ⟨rottrans_quarter_turn,
    (rottrans_angle Real.pi Real.pi_pos (fun b a : ℝ => Complex.arg ⟨a, b⟩)
      (fun a b => arg_range a b) [⟨1, 0, 0⟩, ⟨-1, 0, 0⟩, ⟨0, -1, 0⟩, ⟨0, 1, 0⟩] none 2 0 1 (-1) 0
      (by simp)).2 _ rottrans_quarter_turn⟩

theorem rottrans_negative_mass :
    rottrans Real.pi (fun b a : ℝ => Complex.arg ⟨a, b⟩)
        [⟨1, 0, 0⟩, ⟨3, 0, 0⟩, ⟨4, 0, 0⟩, ⟨0, -4, 0⟩, ⟨0, 1, 0⟩, ⟨0, -3, 0⟩]
        (some [1, 1, -1]) 3 1 0 0 1
      = some (9 * Real.pi / 2) := by
  have hpi := Real.pi_gt_three
  have c0 : calccom [⟨1, 0, 0⟩, ⟨3, 0, 0⟩, ⟨4, 0, 0⟩, ⟨0, -4, 0⟩, ⟨0, 1, 0⟩, ⟨0, -3, 0⟩]
      (some [1, 1, -1]) 3 = ⟨Dbl.fin 0, Dbl.fin 0, Dbl.fin 0⟩ := by
    simp [calccom, calccom_step, massAt, at3, List.range_succ, Dbl.fin_div]
    norm_num
  have c1 : calccom
      (List.drop 3 [⟨1, 0, 0⟩, ⟨3, 0, 0⟩, ⟨4, 0, 0⟩, ⟨0, -4, 0⟩, ⟨0, 1, 0⟩, ⟨0, -3, 0⟩])
      (some [1, 1, -1]) 3 = ⟨Dbl.fin 0, Dbl.fin 0, Dbl.fin 0⟩ := by
    simp [calccom, calccom_step, massAt, at3, List.range_succ, Dbl.fin_div]
    norm_num
  have t0 : (DVec3.toK ⟨Dbl.fin 0, Dbl.fin 0, Dbl.fin 0⟩ : Option (Vec3K ℝ))
      = some ⟨0, 0, 0⟩ := by
    simp [DVec3.toK, Dbl.fin]
  have href : Complex.arg ⟨(1 : ℝ) + 1, 0 - 0⟩ = 0 := by
    have : ((0 : ℝ) - 0) = 0 := by norm_num
    rw [this]; exact arg_pos_axis _ (by norm_num)
  have wm : wrapAngle Real.pi (-(Real.pi / 2)) 0 = -(Real.pi / 2) := by
    rw [wrapAngle_id Real.pi (by linarith) _ _ (by linarith) (by linarith)]; ring
  have wp : wrapAngle Real.pi (Real.pi / 2) 0 = Real.pi / 2 := by
    rw [wrapAngle_id Real.pi (by linarith) _ _ (by linarith) (by linarith)]; ring
  have e3 : List.range 3 = [0, 1, 2] := rfl
  simp only [rottrans, c0, c1, t0]
  rw [href, aveang_eq]
  simp only [sumK, e3, List.map_cons, List.map_nil, List.sum_cons, List.sum_nil]
  simp [aveang_wt, aveang_dang, atK, Vec3.toK, arg_pos_axis, arg_neg_im, arg_pos_im, wm, wp,
    positiveAngle]
  refine ⟨9 * Real.pi / 2, ⟨by norm_num, ?_⟩, ?_⟩
  · ring
  · rw [if_neg (by norm_num; linarith)]

/-- C18, counterexample: over the reals with the number π and the function
`atan2`. For two atoms (one in each subunit, each at its own center) all the
weights of `aveang` are 0 and the angle stored has no finite value, so it is
not below `2π + π`. For three atoms in each subunit with the masses `1, 1, -1`
the angle stored is `9π/2`, which is not below `2π + π`. In both cases the
rotation matrix is the identity and the reference angle is 0. -/
theorem rottrans_angle_unbounded :
    rottrans Real.pi (fun b a : ℝ => Complex.arg ⟨a, b⟩)
        [⟨0, 0, 0⟩, ⟨1, 0, 0⟩] none 1 1 0 0 1 = none
    ∧ rottrans Real.pi (fun b a : ℝ => Complex.arg ⟨a, b⟩)
        [⟨1, 0, 0⟩, ⟨3, 0, 0⟩, ⟨4, 0, 0⟩, ⟨0, -4, 0⟩, ⟨0, 1, 0⟩, ⟨0, -3, 0⟩]
        (some [1, 1, -1]) 3 1 0 0 1
      = some (9 * Real.pi / 2)
    ∧ ¬ (9 * Real.pi / 2 < 2 * Real.pi + Real.pi) := by
  refine ⟨?_, rottrans_negative_mass, by linarith [Real.pi_pos]⟩
  have c0 : calccom [⟨0, 0, 0⟩, ⟨1, 0, 0⟩] none 1 = ⟨Dbl.fin 0, Dbl.fin 0, Dbl.fin 0⟩ := by
    simp [calccom, calccom_step, massAt, at3, List.range_succ, Dbl.fin_div]
  have c1 : calccom (List.drop 1 [⟨0, 0, 0⟩, ⟨1, 0, 0⟩]) none 1
      = ⟨Dbl.fin 1, Dbl.fin 0, Dbl.fin 0⟩ := by
    simp [calccom, calccom_step, massAt, at3, List.range_succ, Dbl.fin_div]
  have t0 : (DVec3.toK ⟨Dbl.fin 0, Dbl.fin 0, Dbl.fin 0⟩ : Option (Vec3K ℝ))
      = some ⟨0, 0, 0⟩ := by
    simp [DVec3.toK, Dbl.fin]
  have t1 : (DVec3.toK ⟨Dbl.fin 1, Dbl.fin 0, Dbl.fin 0⟩ : Option (Vec3K ℝ))
      = some ⟨1, 0, 0⟩ := by
    simp [DVec3.toK, Dbl.fin]
  have e1 : List.range 1 = [0] := rfl
  simp only [rottrans, c0, c1, t0, t1]
  rw [aveang_eq]
  simp [sumK, e1, aveang_wt, atK, Vec3.toK]

/-! ## The contract of `aveang` -/

theorem aveang_wt_nonneg_mass {K : Type} [LinearOrderedField K] (x y : List (Vec3K K))
    (mass : Option (List K)) (xc yc : Vec3K K) (i : Nat)
    (hm : ∀ ms, mass = some ms → ∀ q ∈ ms, 0 ≤ q) :
    0 ≤ aveang_wt x y mass xc yc i := by
  have hsq : 0 ≤ ((atK x i).x - xc.x) * ((atK x i).x - xc.x)
      + ((atK x i).y - xc.y) * ((atK x i).y - xc.y)
      + ((atK y i).x - yc.x) * ((atK y i).x - yc.x)
      + ((atK y i).y - yc.y) * ((atK y i).y - yc.y) := by
    nlinarith [mul_self_nonneg ((atK x i).x - xc.x), mul_self_nonneg ((atK x i).y - xc.y),
      mul_self_nonneg ((atK y i).x - yc.x), mul_self_nonneg ((atK y i).y - yc.y)]
  cases mass with
  | none => simpa [aveang_wt] using hsq
  | some ms =>
    have hq : 0 ≤ ms.getD i 0 := by
      rw [List.getD_eq_getElem?_getD]
      cases hg : ms[i]? with
      | none => simp
      | some q =>
        have : q ∈ ms := List.getElem?_mem hg
        simpa using hm ms rfl q this
    simp only [aveang_wt]
    exact mul_nonneg hsq hq

/-- C21: for every input of `aveang` with masses that are not negative (or no
masses), with `diff_i - ref + 5π ≥ 0` for every atom `i` and with a total weight
`wtot > 0`, `aveang` returns an angle in `[ref - π, ref + π)`; and when every
atom with a positive weight has the same wrapped difference `w`, the angle
returned is `ref + w`. -/
theorem aveang_contract {K : Type} [LinearOrderedField K] [FloorRing K] (pi : K)
    (hpi : 0 < pi) (atan2 : K → K → K) (x y : List (Vec3K K)) (mass : Option (List K))
    (ns : Nat) (xc yc : Vec3K K) (angref : K)
    (hm : ∀ ms, mass = some ms → ∀ q ∈ ms, 0 ≤ q)
    (hpre : ∀ i, i < ns → 0 ≤ aveang_dang atan2 x y xc yc i - angref + 5 * pi)
    (hw : 0 < sumK (List.range ns) (aveang_wt x y mass xc yc)) :
    ∃ d, aveang pi atan2 x y mass ns xc yc angref = some d
      ∧ angref - pi ≤ d ∧ d < angref + pi
      ∧ ∀ w, (∀ i, i < ns → 0 < aveang_wt x y mass xc yc i →
            wrapAngle pi (aveang_dang atan2 x y xc yc i) angref = w) →
          d = angref + w := by
  have hne : sumK (List.range ns) (aveang_wt x y mass xc yc) ≠ 0 := ne_of_gt hw
  have hwt : ∀ i, i < ns → 0 ≤ aveang_wt x y mass xc yc i :=
    fun i _ => aveang_wt_nonneg_mass x y mass xc yc i hm
  have hsome : aveang pi atan2 x y mass ns xc yc angref
      = some (angref
          + sumK (List.range ns) (fun i => aveang_wt x y mass xc yc i
              * wrapAngle pi (aveang_dang atan2 x y xc yc i) angref)
            / sumK (List.range ns) (aveang_wt x y mass xc yc)) := by
    rw [aveang_eq, if_neg hne]
  have hr := aveang_range pi hpi atan2 x y mass ns xc yc angref _ hwt hpre hsome
  refine ⟨_, hsome, hr.1, hr.2, ?_⟩
  intro w hsame
  have hu := aveang_uniform pi atan2 x y mass ns xc yc angref w
    (by
      intro i hi
      rcases (hwt i hi).lt_or_eq with hlt | heq
      · exact Or.inr (hsame i hi hlt)
      · exact Or.inl heq.symm)
    hne
  rw [hsome] at hu
  exact Option.some.inj hu

/-- C21, witness: over the reals with the number π and the function `atan2`,
one atom at `(1, 0)` and one at angle `-π + 0.01` on the unit circle, centers
at the origin, no masses, reference `π - 0.01`: the weight is 2, the wrapped
difference is `0.02` and the angle returned is `π + 0.01`, inside
`[ref - π, ref + π)`. -/
theorem aveang_contract_witness :
    aveang Real.pi (fun b a : ℝ => Complex.arg ⟨a, b⟩) [(⟨1, 0, 0⟩ : Vec3K ℝ)]
        [⟨Real.cos (-Real.pi + 0.01), Real.sin (-Real.pi + 0.01), 0⟩] none 1
        ⟨0, 0, 0⟩ ⟨0, 0, 0⟩ (Real.pi - 0.01)
      = some (Real.pi - 0.01 + 0.02)
    ∧ Real.pi - 0.01 - Real.pi ≤ Real.pi - 0.01 + 0.02
    ∧ Real.pi - 0.01 + 0.02 < Real.pi - 0.01 + Real.pi := by
  have hpi3 := Real.pi_gt_three
  obtain ⟨d, hd, h1, h2, h3⟩ := aveang_contract Real.pi Real.pi_pos
    (fun b a : ℝ => Complex.arg ⟨a, b⟩) [(⟨1, 0, 0⟩ : Vec3K ℝ)]
    [⟨Real.cos (-Real.pi + 0.01), Real.sin (-Real.pi + 0.01), 0⟩] none 1
    ⟨0, 0, 0⟩ ⟨0, 0, 0⟩ (Real.pi - 0.01) (by simp)
    (by
      intro i hi
      have : i = 0 := by omega
      subst this
      rw [unit_pair_input.2]
      norm_num
      linarith)
    (by
      have e : List.range 1 = [0] := rfl
      simp only [sumK, e, List.map_cons, List.map_nil, List.sum_cons, List.sum_nil, add_zero,
        unit_pair_input.1]
      norm_num)
  have hdw : d = Real.pi - 0.01 + 0.02 := h3 0.02 (by
    intro i hi _
    have : i = 0 := by omega
    subst this
    rw [unit_pair_input.2]
    exact wrapAngle_opposite Real.pi (by linarith))
  subst hdw
  exact ⟨hd, h1, h2⟩

/-! ## The torque returned by the two versions of `calctorq` -/

theorem calctorq_fold_fst (x f : List Vec3) (ns : Nat) (xc0 xc1 : DVec3) (l : List Nat)
    (st : Dbl × Dbl) :
    (l.foldl (calctorq_step x f ns xc0 xc1) st).1
      = l.foldl (MfH.calctorq_step x f ns xc0 xc1) st.1 := by
  induction l generalizing st with
  | nil => rfl
  | cons i l ih =>
    rw [List.foldl_cons, List.foldl_cons, ih]
    rfl

theorem older_calctorq_formula (np : Nat) (x f : List Vec3) (c0 c1 : Vec3) :
    MfH.calctorq x f np c0.toD c1.toD
      = Dbl.fin ((sumOver (subB np) (torqueTerm x f c1)
          - sumOver (subA np) (torqueTerm x f c0)) / 2) := by
  have h := calctorq_formula np x f c0 c1
  have h1 : ((List.range np).foldl (calctorq_step x f (np / 2) c0.toD c1.toD)
      (Dbl.fin 0, Dbl.fin 0)).1
      = Dbl.fin (sumOver (subB np) (torqueTerm x f c1)
          - sumOver (subA np) (torqueTerm x f c0)) := by
    have := congrArg Prod.fst h
    simpa [calctorq] using this
  rw [calctorq_fold_fst] at h1
  unfold MfH.calctorq
  simp only [h1]
  exact Dbl.fin_div _ _ (by norm_num)

theorem calctorq_twice_older (np : Nat) (x f : List Vec3) (c0 c1 : Vec3) :
    (calctorq x f np c0.toD c1.toD).1 = Dbl.fin 2 * MfH.calctorq x f np c0.toD c1.toD := by
  rw [calctorq_formula, older_calctorq_formula]
  simp only [Dbl.fin_mul, Dbl.fin_inj]
  ring

end Dnapair
